import Mathlib

/-!
# GoParse: a backtracking parser-combinator engine (`parse.go`)

A shallow embedding of `parse.go`.  Go functions may fail to return a value in
two ways: a run-time panic (failed type assertion, index out of range) or an
unbounded recursion.  Both are kept visible: every parser returns an
`Except Fault _`, and the two self-referential combinators `Many` and `XMany`
carry a fuel counter bounding the nesting depth of their recursive closure.
-/

namespace GoParse

/-- The two ways in which a Go call can fail to return: a run-time panic, or the
recursion budget of the embedding being exhausted. -/
inductive Fault where
  | crash
  | fuel
  deriving DecidableEq, Repr

/-- Dynamic values stored in a Go `interface{}`: a single `byte`, a generic list
`[]interface{}`, a byte slice `[]byte`, or a value of any other dynamic type
(identified by a tag). -/
inductive Value where
  | byte (b : UInt8)
  | list (xs : List Value)
  | bytes (bs : List UInt8)
  | other (tag : Nat)

/-- The struct `ParseResult` of the source: a parsed value and the unconsumed input. -/
structure ParseResult where
  Result : Value
  Remainder : List UInt8

/-- The type `Parser` of the source, `func([]byte) []ParseResult`. -/
abbrev Parser := List UInt8 → Except Fault (List ParseResult)

/-- The type `ParserGenerator` of the source, `func(interface{}) Parser`. -/
abbrev ParserGenerator := Value → Parser

/-- The type `Predicate` of the source, `func(interface{}) bool`. -/
abbrev Predicate := Value → Except Fault Bool

/-- The helper `fold`: seeds with `xs[0]` and combines left to right.  Indexing
`xs[0]` of an empty argument list panics. -/
def fold (f : Parser → Parser → Parser) : List Parser → Parser
  | [] => fun _ => Except.error Fault.crash
  | x :: xs => xs.foldl f x

/-- The helper `cons`: a type switch on `b`. -/
def cons (a : Value) (b : Value) : List Value :=
  match b with
  | Value.list xs => a :: xs
  | _ => [a, b]

/-- The parser `Unit(object)`. -/
def Unit (object : Value) : Parser := fun input =>
  Except.ok [⟨object, input⟩]

/-- The parser `Fail`. -/
def Fail : Parser := fun _ => Except.ok []

/-- The loop of `Bind`: `results = append(results, g(r.Result)(r.Remainder)...)`
for each `r` of `resultsOfF`. -/
def bindLoop (g : ParserGenerator) :
    List ParseResult → List ParseResult → Except Fault (List ParseResult)
  | [], results => Except.ok results
  | resultOfF :: rest, results => do
      let more ← g resultOfF.Result resultOfF.Remainder
      bindLoop g rest (results ++ more)

/-- The combinator `Bind(f, g)`. -/
def Bind (f : Parser) (g : ParserGenerator) : Parser := fun input => do
  let resultsOfF ← f input
  bindLoop g resultsOfF []

/-- The combinator `Using(f, g)`; the transformation `g` is Go code and may panic. -/
def Using (f : Parser) (g : Value → Except Fault Value) : Parser :=
  Bind f (fun resultOfF => fun input => do
    let object ← g resultOfF
    Unit object input)

/-- The combinator `Pred(p)`. -/
def Pred (p : Predicate) : Parser := fun input =>
  match input with
  | [] => Fail input
  | first :: rest => do
      let holds ← p (Value.byte first)
      if holds then Unit (Value.byte first) rest else Fail input

/-- Go's `==` on two interface values: equal dynamic types and equal values;
comparing two values of the same uncomparable (slice) type panics. -/
def interfaceEq : Value → Value → Except Fault Bool
  | Value.byte a, Value.byte b => Except.ok (a == b)
  | Value.other a, Value.other b => Except.ok (a == b)
  | Value.list _, Value.list _ => Except.error Fault.crash
  | Value.bytes _, Value.bytes _ => Except.error Fault.crash
  | _, _ => Except.ok false

/-- The parser `Literal(object)`. -/
def Literal (object : Value) : Parser :=
  Pred (fun testObject => interfaceEq testObject object)

/-- The binary combinator `or`. -/
def or (f g : Parser) : Parser := fun input => do
  let resultsOfF ← f input
  let resultsOfG ← g input
  Except.ok (resultsOfF ++ resultsOfG)

/-- The variadic combinator `Or`. -/
def Or (parsers : List Parser) : Parser := fold or parsers

/-- The binary combinator `xor`. -/
def xor (f g : Parser) : Parser := fun input => do
  let resultsOfF ← f input
  if resultsOfF.length > 0 then Except.ok resultsOfF else g input

/-- The variadic combinator `Xor`. -/
def Xor (parsers : List Parser) : Parser := fold xor parsers

/-- The binary combinator `and`. -/
def and (f g : Parser) : Parser :=
  Bind f (fun resultOfF =>
    Bind g (fun resultOfG =>
      Unit (Value.list [resultOfF, resultOfG])))

/-- The variadic combinator `And`. -/
def And (parsers : List Parser) : Parser := fold and parsers

/-- The anonymous function passed to `Using` inside `Many` and `XMany`:
`both := x.([]interface{}); return cons(both[0], both[1])`. -/
def consBoth (x : Value) : Except Fault Value :=
  match x with
  | Value.list both =>
      match both[0]?, both[1]? with
      | some a, some b => Except.ok (Value.list (cons a b))
      | _, _ => Except.error Fault.crash
  | _ => Except.error Fault.crash

/-- The combinator `Many(f)`.  The fuel bounds how deeply the closure returned by
`Many(f)` may call itself; an exhausted budget is reported as `Fault.fuel`. -/
def Many : Nat → Parser → Parser
  | 0, _ => fun _ => Except.error Fault.fuel
  | n + 1, f => fun input =>
      Or [f, Using (And [f, Many n f]) consBoth] input

/-- The combinator `XMany(f)`, with the same fuel discipline as `Many`. -/
def XMany : Nat → Parser → Parser
  | 0, _ => fun _ => Except.error Fault.fuel
  | n + 1, f => fun input =>
      Xor [Using (And [f, XMany n f]) consBoth, f] input

/-- The combinator `ThenIgnore(f, g)`. -/
def ThenIgnore (f g : Parser) : Parser :=
  Bind f (fun resultOfF =>
    Bind g (fun _ =>
      Unit resultOfF))

/-- The combinator `IgnoreThen(f, g)`. -/
def IgnoreThen (f g : Parser) : Parser :=
  Bind f (fun _ =>
    Bind g (fun resultOfG =>
      Unit resultOfG))

/-- The combinator `ThenX(f, g)`. -/
def ThenX (f g : Parser) : Parser := Or [f, ThenIgnore f g]

/-- The combinator `XThen(f, g)`. -/
def XThen (f g : Parser) : Parser := Or [g, IgnoreThen f g]

/-- The combinator `XThenX(f, g, h)`. -/
def XThenX (f g h : Parser) : Parser := XThen f (ThenX g h)

/-- The combinator `SeparateBy(f, g)`; the fuel is that of the inner `XMany`. -/
def SeparateBy (n : Nat) (f g : Parser) : Parser :=
  And [f, XMany n (IgnoreThen g f)]

/-- Modelled from the spec: the Unicode letter class predicate used by `Letter`
(`unicode.IsLetter` of the Go standard library, which is not part of the
repository), on the code points 0..255 that a single byte can denote. -/
def unicodeIsLetter (r : Nat) : Bool :=
  (0x41 ≤ r && r ≤ 0x5A) || (0x61 ≤ r && r ≤ 0x7A) || r == 0xAA || r == 0xB5 ||
    r == 0xBA || (0xC0 ≤ r && r ≤ 0xD6) || (0xD8 ≤ r && r ≤ 0xF6) ||
    (0xF8 ≤ r && r ≤ 0xFF)

/-- Modelled from the spec: the Unicode digit class predicate used by `Digit`
(`unicode.IsDigit` of the Go standard library), on the code points 0..255. -/
def unicodeIsDigit (r : Nat) : Bool :=
  0x30 ≤ r && r ≤ 0x39

/-- Modelled from the spec: the Unicode space class predicate used by
`Whitespace` (`unicode.IsSpace` of the Go standard library), on the code points
0..255. -/
def unicodeIsSpace (r : Nat) : Bool :=
  r == 0x09 || r == 0x0A || r == 0x0B || r == 0x0C || r == 0x0D || r == 0x20 ||
    r == 0x85 || r == 0xA0

/-- The helper `wrapUnicodePredicate(p)`: the type assertion `object.(byte)`
panics on a value that is not a byte. -/
def wrapUnicodePredicate (p : Nat → Bool) : Parser :=
  Pred (fun object =>
    match object with
    | Value.byte b => Except.ok (p b.toNat)
    | _ => Except.error Fault.crash)

/-- The parser `Letter`. -/
def Letter : Parser := fun input => wrapUnicodePredicate unicodeIsLetter input

/-- The parser `Digit`. -/
def Digit : Parser := fun input => wrapUnicodePredicate unicodeIsDigit input

/-- The parser `Whitespace`. -/
def Whitespace (n : Nat) : Parser := fun input =>
  Many n (wrapUnicodePredicate unicodeIsSpace) input

/-- The parser `Word`. -/
def Word (n : Nat) : Parser := fun input => XMany n Letter input

/-- The parser `Integer`. -/
def Integer (n : Nat) : Parser := fun input => Many n Digit input

/-- The bytes of an ASCII string. -/
def ascii (s : String) : List UInt8 := s.toList.map (fun c => c.toNat.toUInt8)

/-- The candidates of a call that returned, and no candidate for one that did not. -/
def candidates (x : Except Fault (List ParseResult)) : List ParseResult :=
  match x with
  | Except.ok rs => rs
  | Except.error _ => []

/-- The candidates of `and f g`, given those of `f`. -/
def pairStep (g : Parser) (rs : List ParseResult) : List ParseResult :=
  rs.flatMap (fun r => (candidates (g r.Remainder)).map
    (fun s => ⟨Value.list [r.Result, s.Result], s.Remainder⟩))

/-- The candidates of `Using(And(f, g), consBoth)`, given those of `f`. -/
def repeatStep (g : Parser) (rs : List ParseResult) : List ParseResult :=
  rs.flatMap (fun r => (candidates (g r.Remainder)).map
    (fun s => ⟨Value.list (cons r.Result s.Result), s.Remainder⟩))

/-- The value computed by `consBoth` on a list, with a default that is never
reached on the 2-element composites built by `and`. -/
def consBothValue (x : Value) : Value :=
  match consBoth x with
  | Except.ok y => y
  | Except.error _ => x

/-- `Reps p input vs rem`: applying `p` consecutively, `vs.length ≥ 1` times and
starting at `input`, can produce the values `vs` in this order and leave `rem`. -/
inductive Reps (p : Parser) : List UInt8 → List Value → List UInt8 → Prop where
  | one (input : List UInt8) (rs : List ParseResult) (v : Value) (rem : List UInt8) :
      p input = Except.ok rs → (⟨v, rem⟩ : ParseResult) ∈ rs → Reps p input [v] rem
  | more (input : List UInt8) (rs : List ParseResult) (v : Value) (mid : List UInt8)
      (vs : List Value) (rem : List UInt8) :
      p input = Except.ok rs → (⟨v, mid⟩ : ParseResult) ∈ rs → Reps p mid vs rem →
      Reps p input (v :: vs) rem

/-- The value that `Many` and `XMany` build from the values of consecutive
applications: the value itself for a single application, and `cons` of the
first value onto the value built from the others otherwise. -/
def manyValue : List Value → Value
  | [] => Value.list []
  | [v] => v
  | v :: w :: ws => Value.list (cons v (manyValue (w :: ws)))

/-- The remainder-is-suffix invariant of a parser: whenever a call returns,
every candidate's remainder is a suffix of the input that was given. -/
def SuffixSafe (p : Parser) : Prop :=
  ∀ input rs, p input = Except.ok rs → ∀ r ∈ rs, r.Remainder <:+ input

/-- The method `ParseResult.Stringify`: `string(self.Result.([]byte))`.  A Go
string is its sequence of bytes; the type assertion panics on a value that is
not a byte slice. -/
def Stringify (self : ParseResult) : Except Fault (List UInt8) :=
  match self.Result with
  | Value.bytes bs => Except.ok bs
  | _ => Except.error Fault.crash

/-- The list that the spec writes `T(x)` for `T = ThenX(g, h)`: the candidates of
`g` on `x`, followed by, for each candidate `(v, r)` of `g` on `x` and each
candidate `(_, r2)` of `h` on `r`, the candidate `(v, r2)`. -/
def thenXList (g h : Parser) (x : List UInt8) : List ParseResult :=
  candidates (g x) ++ (candidates (g x)).flatMap (fun a =>
    (candidates (h a.Remainder)).map (fun b => ⟨a.Result, b.Remainder⟩))

/-! ## Elementary facts about the monad of outcomes -/

@[simp] theorem ok_bind {α β : Type} (a : α) (f : α → Except Fault β) :
    ((Except.ok a : Except Fault α) >>= f) = f a := rfl

@[simp] theorem error_bind {α β : Type} (e : Fault) (f : α → Except Fault β) :
    ((Except.error e : Except Fault α) >>= f) = Except.error e := rfl

@[simp] theorem candidates_ok (rs : List ParseResult) :
    candidates (Except.ok rs) = rs := rfl

theorem eq_ok_candidates {x : Except Fault (List ParseResult)}
    (h : ∃ o, x = Except.ok o) : x = Except.ok (candidates x) := by
  obtain ⟨o, ho⟩ := h
  rw [ho]
  rfl

/-! ## The loop of `Bind` -/

theorem bindLoop_ok (g : ParserGenerator) (out : ParseResult → List ParseResult) :
    ∀ (rs acc : List ParseResult),
      (∀ r ∈ rs, g r.Result r.Remainder = Except.ok (out r)) →
      bindLoop g rs acc = Except.ok (acc ++ rs.flatMap out) := by
  intro rs
  induction rs with
  | nil => intro acc _; simp [bindLoop]
  | cons r rest ih =>
    intro acc h
    have hr := h r (List.mem_cons_self r rest)
    have hrest : ∀ s ∈ rest, g s.Result s.Remainder = Except.ok (out s) :=
      fun s hs => h s (List.mem_cons_of_mem r hs)
    simp [bindLoop, hr, ih _ hrest, List.append_assoc]

theorem bindLoop_inv (g : ParserGenerator) :
    ∀ (rs acc res : List ParseResult), bindLoop g rs acc = Except.ok res →
      ∀ r ∈ rs, ∃ o, g r.Result r.Remainder = Except.ok o := by
  intro rs
  induction rs with
  | nil => intro acc res _ r hr; cases hr
  | cons s rest ih =>
    intro acc res h r hr
    cases hs : g s.Result s.Remainder with
    | error e => simp [bindLoop, hs] at h
    | ok o =>
      simp only [bindLoop, hs, ok_bind] at h
      rcases List.mem_cons.mp hr with heq | hmem
      · subst heq; exact ⟨o, hs⟩
      · exact ih _ _ h r hmem

theorem Bind_eq (f : Parser) (g : ParserGenerator) (input : List UInt8)
    (rs : List ParseResult) (hf : f input = Except.ok rs)
    (hg : ∀ r ∈ rs, ∃ o, g r.Result r.Remainder = Except.ok o) :
    Bind f g input =
      Except.ok (rs.flatMap (fun r => candidates (g r.Result r.Remainder))) := by
  have h := bindLoop_ok g (fun r => candidates (g r.Result r.Remainder)) rs []
    (fun r hr => eq_ok_candidates (hg r hr))
  simp [Bind, hf, h]

theorem Bind_inv (f : Parser) (g : ParserGenerator) (input : List UInt8)
    (res : List ParseResult) (h : Bind f g input = Except.ok res) :
    ∃ rs, f input = Except.ok rs ∧
      ∀ r ∈ rs, ∃ o, g r.Result r.Remainder = Except.ok o := by
  cases hf : f input with
  | error e => simp [Bind, hf] at h
  | ok rs =>
    refine ⟨rs, rfl, ?_⟩
    simp only [Bind, hf, ok_bind] at h
    exact bindLoop_inv g rs [] res h

/-! ## Sequencing: `and`, `Using` and the step shared by `Many` and `XMany` -/

theorem flatMap_single {α β : Type} (h : α → β) (o : List α) :
    o.flatMap (fun s => [h s]) = o.map h := by
  induction o with
  | nil => rfl
  | cons a rest ih => simp [List.flatMap_cons, ih]

theorem Bind_Unit_eq (g : Parser) (F : Value → Value) (rem : List UInt8)
    (o : List ParseResult) (hg : g rem = Except.ok o) :
    Bind g (fun w => Unit (F w)) rem =
      Except.ok (o.map (fun s => ⟨F s.Result, s.Remainder⟩)) := by
  rw [Bind_eq g _ rem o hg (fun r _ => ⟨_, rfl⟩)]
  simp only [Unit, candidates_ok]
  rw [flatMap_single]

theorem Bind_Unit_inv (g : Parser) (F : Value → Value) (rem : List UInt8)
    (res : List ParseResult) (h : Bind g (fun w => Unit (F w)) rem = Except.ok res) :
    ∃ o, g rem = Except.ok o := by
  obtain ⟨rs, hrs, _⟩ := Bind_inv g _ rem res h
  exact ⟨rs, hrs⟩

theorem and_eq (f g : Parser) (input : List UInt8) (rs : List ParseResult)
    (hf : f input = Except.ok rs) (hg : ∀ r ∈ rs, ∃ o, g r.Remainder = Except.ok o) :
    and f g input = Except.ok (pairStep g rs) := by
  have key : ∀ r ∈ rs,
      Bind g (fun resultOfG => Unit (Value.list [r.Result, resultOfG])) r.Remainder =
        Except.ok ((candidates (g r.Remainder)).map
          (fun s => ⟨Value.list [r.Result, s.Result], s.Remainder⟩)) := by
    intro r hr
    exact Bind_Unit_eq g (fun w => Value.list [r.Result, w]) r.Remainder _
      (eq_ok_candidates (hg r hr))
  unfold and
  rw [Bind_eq f _ input rs hf (fun r hr => ⟨_, key r hr⟩)]
  unfold pairStep
  congr 1
  apply List.flatMap_congr
  intro r hr
  rw [key r hr]
  rfl

theorem and_inv (f g : Parser) (input : List UInt8) (res : List ParseResult)
    (h : and f g input = Except.ok res) :
    ∃ rs, f input = Except.ok rs ∧ ∀ r ∈ rs, ∃ o, g r.Remainder = Except.ok o := by
  obtain ⟨rs, hrs, hall⟩ := Bind_inv f _ input res h
  refine ⟨rs, hrs, fun r hr => ?_⟩
  obtain ⟨o, ho⟩ := hall r hr
  exact Bind_Unit_inv g _ r.Remainder o ho

theorem Using_eq (f : Parser) (t : Value → Except Fault Value) (T : Value → Value)
    (input : List UInt8) (rs : List ParseResult) (hf : f input = Except.ok rs)
    (ht : ∀ r ∈ rs, t r.Result = Except.ok (T r.Result)) :
    Using f t input = Except.ok (rs.map (fun r => ⟨T r.Result, r.Remainder⟩)) := by
  have key : ∀ r ∈ rs,
      (fun resultOfF => fun input => do
        let object ← t resultOfF
        Unit object input : ParserGenerator) r.Result r.Remainder =
        Except.ok [⟨T r.Result, r.Remainder⟩] := by
    intro r hr
    simp [ht r hr, Unit]
  unfold Using
  rw [Bind_eq f _ input rs hf (fun r hr => ⟨_, key r hr⟩)]
  rw [← flatMap_single]
  congr 1
  apply List.flatMap_congr
  intro r hr
  have h := key r hr
  simp only [] at h
  rw [h]
  rfl

theorem Using_inv (f : Parser) (t : Value → Except Fault Value)
    (input : List UInt8) (res : List ParseResult)
    (h : Using f t input = Except.ok res) : ∃ rs, f input = Except.ok rs := by
  obtain ⟨rs, hrs, _⟩ := Bind_inv f _ input res h
  exact ⟨rs, hrs⟩

theorem map_pairStep (g : Parser) (rs : List ParseResult) (T : Value → Value)
    (hT : ∀ a b, T (Value.list [a, b]) = Value.list (cons a b)) :
    (pairStep g rs).map (fun r => ⟨T r.Result, r.Remainder⟩) = repeatStep g rs := by
  unfold pairStep repeatStep
  induction rs with
  | nil => rfl
  | cons r rest ih =>
    simp only [List.flatMap_cons, List.map_append, ih, List.map_map]
    congr 1
    apply List.map_congr_left
    intro s _
    simp [hT]

theorem consBoth_pair (a b : Value) :
    consBoth (Value.list [a, b]) = Except.ok (Value.list (cons a b)) := rfl

theorem consBothValue_pair (a b : Value) :
    consBothValue (Value.list [a, b]) = Value.list (cons a b) := rfl

theorem mem_pairStep {g : Parser} {rs : List ParseResult} {c : ParseResult}
    (h : c ∈ pairStep g rs) : ∃ a b, c.Result = Value.list [a, b] := by
  unfold pairStep at h
  obtain ⟨r, _, hc⟩ := List.mem_flatMap.mp h
  obtain ⟨s, _, hs⟩ := List.mem_map.mp hc
  exact ⟨r.Result, s.Result, by rw [← hs]⟩

theorem usingAnd_eq (f g : Parser) (input : List UInt8) (rs : List ParseResult)
    (hf : f input = Except.ok rs) (hg : ∀ r ∈ rs, ∃ o, g r.Remainder = Except.ok o) :
    Using (And [f, g]) consBoth input = Except.ok (repeatStep g rs) := by
  have hand : And [f, g] input = Except.ok (pairStep g rs) := and_eq f g input rs hf hg
  rw [Using_eq (And [f, g]) consBoth consBothValue input _ hand]
  · rw [map_pairStep g rs consBothValue consBothValue_pair]
  · intro c hc
    obtain ⟨a, b, hab⟩ := mem_pairStep hc
    rw [hab, consBoth_pair, consBothValue_pair]

theorem usingAnd_inv (f g : Parser) (input : List UInt8) (res : List ParseResult)
    (h : Using (And [f, g]) consBoth input = Except.ok res) :
    ∃ rs, f input = Except.ok rs ∧ ∀ r ∈ rs, ∃ o, g r.Remainder = Except.ok o := by
  obtain ⟨ps, hps⟩ := Using_inv _ _ input res h
  exact and_inv f g input ps hps

/-! ## Unfolding `Many` and `XMany` by one level of recursion -/

theorem or_eq (f g : Parser) (input : List UInt8) (a b : List ParseResult)
    (hf : f input = Except.ok a) (hg : g input = Except.ok b) :
    or f g input = Except.ok (a ++ b) := by
  simp [or, hf, hg]

theorem or_inv (f g : Parser) (input : List UInt8) (res : List ParseResult)
    (h : or f g input = Except.ok res) :
    ∃ a b, f input = Except.ok a ∧ g input = Except.ok b ∧ res = a ++ b := by
  cases hf : f input with
  | error e => simp [or, hf] at h
  | ok a =>
    cases hg : g input with
    | error e => simp [or, hf, hg] at h
    | ok b =>
      simp only [or, hf, hg, ok_bind, Except.ok.injEq] at h
      exact ⟨a, b, rfl, rfl, h.symm⟩

theorem xor_eq (f g : Parser) (input : List UInt8) (a : List ParseResult)
    (hf : f input = Except.ok a) :
    xor f g input = if a.length > 0 then Except.ok a else g input := by
  simp [xor, hf]

theorem Many_succ (n : Nat) (f : Parser) (input : List UInt8) :
    Many (n + 1) f input = or f (Using (And [f, Many n f]) consBoth) input := rfl

theorem XMany_succ (n : Nat) (f : Parser) (input : List UInt8) :
    XMany (n + 1) f input = xor (Using (And [f, XMany n f]) consBoth) f input := rfl

theorem Many_unfold (n : Nat) (f : Parser) (input : List UInt8) (rs : List ParseResult)
    (hf : f input = Except.ok rs)
    (hg : ∀ r ∈ rs, ∃ o, Many n f r.Remainder = Except.ok o) :
    Many (n + 1) f input = Except.ok (rs ++ repeatStep (Many n f) rs) := by
  rw [Many_succ]
  exact or_eq _ _ input _ _ hf (usingAnd_eq f (Many n f) input rs hf hg)

theorem Many_inv (n : Nat) (f : Parser) (input : List UInt8) (res : List ParseResult)
    (h : Many (n + 1) f input = Except.ok res) :
    ∃ rs, f input = Except.ok rs ∧
      ∀ r ∈ rs, ∃ o, Many n f r.Remainder = Except.ok o := by
  rw [Many_succ] at h
  obtain ⟨_, b, _, hb, _⟩ := or_inv _ _ input res h
  exact usingAnd_inv f (Many n f) input b hb

theorem XMany_unfold (n : Nat) (f : Parser) (input : List UInt8) (rs : List ParseResult)
    (hf : f input = Except.ok rs)
    (hg : ∀ r ∈ rs, ∃ o, XMany n f r.Remainder = Except.ok o) :
    XMany (n + 1) f input =
      Except.ok (if (repeatStep (XMany n f) rs).length > 0
        then repeatStep (XMany n f) rs else rs) := by
  rw [XMany_succ, xor_eq _ _ input _ (usingAnd_eq f (XMany n f) input rs hf hg)]
  split
  · rfl
  · exact hf

theorem XMany_inv (n : Nat) (f : Parser) (input : List UInt8) (res : List ParseResult)
    (h : XMany (n + 1) f input = Except.ok res) :
    ∃ rs, f input = Except.ok rs ∧
      ∀ r ∈ rs, ∃ o, XMany n f r.Remainder = Except.ok o := by
  rw [XMany_succ] at h
  cases hu : Using (And [f, XMany n f]) consBoth input with
  | error e => simp [xor, hu] at h
  | ok b => exact usingAnd_inv f (XMany n f) input b hu

theorem repeatStep_single (g : Parser) (v : Value) (rem : List UInt8)
    (cs : List ParseResult) (hg : g rem = Except.ok cs) :
    repeatStep g [⟨v, rem⟩] =
      cs.map (fun s => ⟨Value.list (cons v s.Result), s.Remainder⟩) := by
  simp [repeatStep, hg]

theorem repeatStep_nil (g : Parser) : repeatStep g [] = [] := rfl

/-! ## Deterministic chains: `p` matches `m` times in a row and then fails -/

theorem Many_chain (p : Parser) (i : Nat → List UInt8) (v : Nat → Value) :
    ∀ (m j fuel : Nat),
      (∀ t, t < m → p (i (j + t)) = Except.ok [⟨v (j + t + 1), i (j + t + 1)⟩]) →
      p (i (j + m)) = Except.ok [] → m < fuel →
      ∃ cs, Many fuel p (i j) = Except.ok cs ∧
        cs.map (fun c => c.Remainder) = (List.range m).map (fun t => i (j + t + 1)) := by
  intro m
  induction m with
  | zero =>
    intro j fuel _ hend hfuel
    obtain ⟨n, rfl⟩ := Nat.exists_eq_succ_of_ne_zero (Nat.pos_iff_ne_zero.mp hfuel)
    refine ⟨[], ?_, rfl⟩
    have h := Many_unfold n p (i j) [] hend (fun r hr => by cases hr)
    simpa [repeatStep_nil] using h
  | succ m ih =>
    intro j fuel hstep hend hfuel
    obtain ⟨n, rfl⟩ := Nat.exists_eq_succ_of_ne_zero (Nat.pos_iff_ne_zero.mp (by omega : 0 < fuel))
    have h0 := hstep 0 (Nat.succ_pos m)
    simp only [Nat.add_zero] at h0
    obtain ⟨cs, hcs, hrem⟩ := ih (j + 1) n
      (fun t ht => by
        have := hstep (t + 1) (by omega)
        rw [show j + (t + 1) = j + 1 + t by omega] at this
        exact this)
      (by rw [show j + 1 + m = j + (m + 1) by omega]; exact hend) (by omega)
    have h := Many_unfold n p (i j) _ h0
      (fun r hr => by
        rw [List.mem_singleton] at hr
        subst hr
        exact ⟨cs, hcs⟩)
    rw [repeatStep_single _ _ _ cs hcs] at h
    refine ⟨_, h, ?_⟩
    simp only [List.singleton_append, List.map_cons, List.map_map]
    rw [List.range_succ_eq_map, List.map_cons, List.map_map]
    congr 1
    have : (fun c : ParseResult => c.Remainder) ∘
        (fun s : ParseResult => (⟨Value.list (cons (v (j + 1)) s.Result), s.Remainder⟩ : ParseResult))
        = fun c => c.Remainder := rfl
    rw [this, hrem]
    apply List.map_congr_left
    intro t _
    simp only [Function.comp]
    rw [show j + 1 + t + 1 = j + (t + 1) + 1 by omega]

/-! ## The values built by repetition -/

theorem Reps_ne_nil {p : Parser} {input rem : List UInt8} {vs : List Value}
    (h : Reps p input vs rem) : vs ≠ [] := by
  cases h <;> simp

theorem manyValue_cons (v : Value) {vs : List Value} (h : vs ≠ []) :
    manyValue (v :: vs) = Value.list (cons v (manyValue vs)) := by
  cases vs with
  | nil => exact absurd rfl h
  | cons w ws => rfl

theorem cons_of_not_list (a b : Value) (hb : ∀ l, b ≠ Value.list l) :
    cons a b = [a, b] := by
  cases b with
  | list xs => exact absurd rfl (hb xs)
  | byte _ => rfl
  | bytes _ => rfl
  | other _ => rfl

theorem manyValue_flat : ∀ (vs : List Value), 2 ≤ vs.length →
    (∀ w, vs.getLast? = some w → ∀ l, w ≠ Value.list l) →
    manyValue vs = Value.list vs := by
  intro vs
  induction vs with
  | nil => intro h; simp at h
  | cons a rest ih =>
    intro hlen hlast
    match rest, ih, hlen, hlast with
    | [b], _, _, hlast =>
      have hb : ∀ l, b ≠ Value.list l := hlast b (by simp)
      show Value.list (cons a b) = Value.list [a, b]
      rw [cons_of_not_list a b hb]
    | b :: c :: more, ih, _, hlast =>
      have h2 := ih (by simp) (fun w hw => hlast w (by
        rw [List.getLast?_cons_cons]
        exact hw))
      show Value.list (cons a (manyValue (b :: c :: more))) = Value.list (a :: b :: c :: more)
      rw [h2]
      rfl

theorem mem_repeatStep {g : Parser} {rs : List ParseResult} {c : ParseResult} :
    c ∈ repeatStep g rs ↔ ∃ r ∈ rs, ∃ s ∈ candidates (g r.Remainder),
      c = ⟨Value.list (cons r.Result s.Result), s.Remainder⟩ := by
  unfold repeatStep
  rw [List.mem_flatMap]
  constructor
  · rintro ⟨r, hr, hc⟩
    obtain ⟨s, hs, hcs⟩ := List.mem_map.mp hc
    exact ⟨r, hr, s, hs, hcs.symm⟩
  · rintro ⟨r, hr, s, hs, hcs⟩
    exact ⟨r, hr, List.mem_map.mpr ⟨s, hs, hcs.symm⟩⟩

theorem Many_eq_of_ok (n : Nat) (f : Parser) (input : List UInt8) (cs : List ParseResult)
    (h : Many (n + 1) f input = Except.ok cs) :
    ∃ rs, f input = Except.ok rs ∧
      (∀ r ∈ rs, Many n f r.Remainder = Except.ok (candidates (Many n f r.Remainder))) ∧
      cs = rs ++ repeatStep (Many n f) rs := by
  obtain ⟨rs, hf, hg⟩ := Many_inv n f input cs h
  refine ⟨rs, hf, fun r hr => eq_ok_candidates (hg r hr), ?_⟩
  have h2 := Many_unfold n f input rs hf hg
  rw [h] at h2
  exact Except.ok.inj h2

theorem XMany_eq_of_ok (n : Nat) (f : Parser) (input : List UInt8) (cs : List ParseResult)
    (h : XMany (n + 1) f input = Except.ok cs) :
    ∃ rs, f input = Except.ok rs ∧
      (∀ r ∈ rs, XMany n f r.Remainder = Except.ok (candidates (XMany n f r.Remainder))) ∧
      cs = (if (repeatStep (XMany n f) rs).length > 0
        then repeatStep (XMany n f) rs else rs) := by
  obtain ⟨rs, hf, hg⟩ := XMany_inv n f input cs h
  refine ⟨rs, hf, fun r hr => eq_ok_candidates (hg r hr), ?_⟩
  have h2 := XMany_unfold n f input rs hf hg
  rw [h] at h2
  exact Except.ok.inj h2

theorem Reps_step (p : Parser) (input : List UInt8) (rs : List ParseResult)
    (hp : p input = Except.ok rs) (r s : ParseResult) (hr : r ∈ rs)
    (h : ∃ vs, Reps p r.Remainder vs s.Remainder ∧ s.Result = manyValue vs) :
    ∃ vs, Reps p input vs s.Remainder ∧
      Value.list (cons r.Result s.Result) = manyValue vs := by
  obtain ⟨vs, hvs, hval⟩ := h
  refine ⟨r.Result :: vs, Reps.more input rs r.Result r.Remainder vs s.Remainder hp hr hvs, ?_⟩
  rw [manyValue_cons _ (Reps_ne_nil hvs), hval]

theorem Many_sound (p : Parser) : ∀ (fuel : Nat) (input : List UInt8)
    (cs : List ParseResult), Many fuel p input = Except.ok cs → ∀ c ∈ cs,
    ∃ vs, Reps p input vs c.Remainder ∧ c.Result = manyValue vs := by
  intro fuel
  induction fuel with
  | zero => intro input cs h; cases h
  | succ n ih =>
    intro input cs h c hc
    obtain ⟨rs, hp, hrec, rfl⟩ := Many_eq_of_ok n p input cs h
    rcases List.mem_append.mp hc with hc | hc
    · exact ⟨[c.Result], Reps.one input rs c.Result c.Remainder hp hc, rfl⟩
    · obtain ⟨r, hr, s, hs, rfl⟩ := mem_repeatStep.mp hc
      exact Reps_step p input rs hp r s hr (ih _ _ (hrec r hr) s hs)

theorem XMany_sound (p : Parser) : ∀ (fuel : Nat) (input : List UInt8)
    (cs : List ParseResult), XMany fuel p input = Except.ok cs → ∀ c ∈ cs,
    ∃ vs, Reps p input vs c.Remainder ∧ c.Result = manyValue vs := by
  intro fuel
  induction fuel with
  | zero => intro input cs h; cases h
  | succ n ih =>
    intro input cs h c hc
    obtain ⟨rs, hp, hrec, rfl⟩ := XMany_eq_of_ok n p input cs h
    split at hc
    · obtain ⟨r, hr, s, hs, rfl⟩ := mem_repeatStep.mp hc
      exact Reps_step p input rs hp r s hr (ih _ _ (hrec r hr) s hs)
    · exact ⟨[c.Result], Reps.one input rs c.Result c.Remainder hp hc, rfl⟩

theorem Many_complete (p : Parser) (input rem : List UInt8) (vs : List Value)
    (h : Reps p input vs rem) : ∀ (fuel : Nat) (cs : List ParseResult),
    Many fuel p input = Except.ok cs → (⟨manyValue vs, rem⟩ : ParseResult) ∈ cs := by
  induction h with
  | one input rs v rem hp hmem =>
    intro fuel cs hcs
    cases fuel with
    | zero => cases hcs
    | succ n =>
      obtain ⟨rs2, hp2, _, rfl⟩ := Many_eq_of_ok n p input cs hcs
      rw [hp] at hp2
      cases Except.ok.inj hp2
      exact List.mem_append_left _ hmem
  | more input rs v mid vs rem hp hmem hreps ih =>
    intro fuel cs hcs
    cases fuel with
    | zero => cases hcs
    | succ n =>
      obtain ⟨rs2, hp2, hrec, rfl⟩ := Many_eq_of_ok n p input cs hcs
      rw [hp] at hp2
      cases Except.ok.inj hp2
      apply List.mem_append_right
      rw [manyValue_cons _ (Reps_ne_nil hreps)]
      exact mem_repeatStep.mpr ⟨⟨v, mid⟩, hmem, ⟨manyValue vs, rem⟩,
        ih n _ (hrec _ hmem), rfl⟩

/-! ## The greedy chain, with its value -/

theorem range_succ_map_shift (v : Nat → Value) (j m : Nat) :
    (List.range (m + 1)).map (fun t => v (j + t + 1)) =
      v (j + 1) :: (List.range m).map (fun t => v (j + 1 + t + 1)) := by
  rw [List.range_succ_eq_map, List.map_cons, List.map_map]
  congr 1
  apply List.map_congr_left
  intro t _
  simp only [Function.comp]
  rw [show j + 1 + t + 1 = j + (t + 1) + 1 by omega]

theorem XMany_chain (p : Parser) (i : Nat → List UInt8) (v : Nat → Value) :
    ∀ (m j fuel : Nat),
      (∀ t, t < m → p (i (j + t)) = Except.ok [⟨v (j + t + 1), i (j + t + 1)⟩]) →
      p (i (j + m)) = Except.ok [] → m < fuel →
      XMany fuel p (i j) = Except.ok (if m = 0 then [] else
        [⟨manyValue ((List.range m).map (fun t => v (j + t + 1))), i (j + m)⟩]) := by
  intro m
  induction m with
  | zero =>
    intro j fuel _ hend hfuel
    obtain ⟨n, rfl⟩ := Nat.exists_eq_succ_of_ne_zero (Nat.pos_iff_ne_zero.mp hfuel)
    have h := XMany_unfold n p (i j) [] hend (fun r hr => by cases hr)
    simpa [repeatStep_nil] using h
  | succ m ih =>
    intro j fuel hstep hend hfuel
    obtain ⟨n, rfl⟩ := Nat.exists_eq_succ_of_ne_zero (Nat.pos_iff_ne_zero.mp (by omega : 0 < fuel))
    have h0 := hstep 0 (Nat.succ_pos m)
    simp only [Nat.add_zero] at h0
    have hcs := ih (j + 1) n
      (fun t ht => by
        have := hstep (t + 1) (by omega)
        rw [show j + (t + 1) = j + 1 + t by omega] at this
        exact this)
      (by rw [show j + 1 + m = j + (m + 1) by omega]; exact hend) (by omega)
    have h := XMany_unfold n p (i j) _ h0
      (fun r hr => by
        rw [List.mem_singleton] at hr
        subst hr
        exact ⟨_, hcs⟩)
    rw [repeatStep_single _ _ _ _ hcs] at h
    rw [h, if_neg (Nat.succ_ne_zero m), range_succ_map_shift]
    by_cases hm : m = 0
    · subst hm
      simp [manyValue]
    · have hne : (List.range m).map (fun t => v (j + 1 + t + 1)) ≠ [] := by
        intro hnil
        have := congrArg List.length hnil
        simp at this
        exact hm this
      rw [manyValue_cons _ hne]
      simp only [if_neg hm, List.map_cons, List.map_nil, List.length_singleton,
        gt_iff_lt, Nat.zero_lt_one, if_true]
      rw [show j + 1 + m = j + (m + 1) by omega]

/-! ## The claims about repetition -/

/-- C1: if `p` matches exactly `k ≥ 1` times in a row along the inputs `i 0 … i k`
(`p (i j) = [(v (j+1), i (j+1))]` for `j < k`, and `p (i k) = []`), then `Many(p)`
applied to `i 0` returns, for every recursion budget above `k`, exactly `k`
candidates, and the candidate at position `j` (counting from 0) has remainder
`i (j+1)`: one candidate per repetition count `1..k`, in that order.  The chain
already fixes what `p` does on the inputs that are reached, so no assumption on
`p` elsewhere is used. -/
theorem Many_one_candidate_per_count (p : Parser) (k : Nat) (i : Nat → List UInt8)
    (v : Nat → Value) (_hk : 1 ≤ k)
    (hstep : ∀ j, j < k → p (i j) = Except.ok [⟨v (j + 1), i (j + 1)⟩])
    (hend : p (i k) = Except.ok []) (fuel : Nat) (hfuel : k < fuel) :
    ∃ cs, Many fuel p (i 0) = Except.ok cs ∧ cs.length = k ∧
      ∀ j, j < k → (cs.map (fun c => c.Remainder))[j]? = some (i (j + 1)) := by
  obtain ⟨cs, hcs, hrem⟩ := Many_chain p i v k 0 fuel
    (fun t ht => by simpa using hstep t ht) (by simpa using hend) hfuel
  refine ⟨cs, hcs, ?_, ?_⟩
  · have := congrArg List.length hrem
    simpa using this
  · intro j hj
    rw [hrem, List.getElem?_map, List.getElem?_range hj]
    simp

/-- C1 at `Integer` on "123x": three candidates with remainders "23x", "3x", "x". -/
theorem Many_one_candidate_per_count_witness :
    ∃ cs, Integer 4 (ascii "123x") = Except.ok cs ∧ cs.length = 3 ∧
      ∀ j, j < 3 → (cs.map (fun c => c.Remainder))[j]? =
        some ((ascii "123x").drop (j + 1)) :=
  Many_one_candidate_per_count Digit 3 (fun j => (ascii "123x").drop j)
    (fun j => Value.byte (48 + j).toUInt8) (by decide)
    (fun j hj => by interval_cases j <;> rfl) rfl 4 (by decide)

/-- C2: under the same chain of `k ≥ 1` consecutive matches of `p` followed by a
failure, `XMany(p)` applied to `i 0` returns, for every recursion budget above
`k`, exactly one candidate, and its remainder is `i k` (the maximal match). -/
theorem XMany_maximal_match (p : Parser) (k : Nat) (i : Nat → List UInt8)
    (v : Nat → Value) (hk : 1 ≤ k)
    (hstep : ∀ j, j < k → p (i j) = Except.ok [⟨v (j + 1), i (j + 1)⟩])
    (hend : p (i k) = Except.ok []) (fuel : Nat) (hfuel : k < fuel) :
    ∃ c, XMany fuel p (i 0) = Except.ok [c] ∧ c.Remainder = i k := by
  have h := XMany_chain p i v k 0 fuel
    (fun t ht => by simpa using hstep t ht) (by simpa using hend) hfuel
  have hk0 : k ≠ 0 := by omega
  rw [if_neg hk0] at h
  exact ⟨_, h, by simp⟩

/-- C2 at `Word` on "ab3": one candidate, with remainder "3". -/
theorem XMany_maximal_match_witness :
    ∃ c, Word 3 (ascii "ab3") = Except.ok [c] ∧ c.Remainder = ascii "3" :=
  XMany_maximal_match Letter 2 (fun j => (ascii "ab3").drop j)
    (fun j => Value.byte (96 + j).toUInt8) (by decide)
    (fun j hj => by interval_cases j <;> rfl) rfl 3 (by decide)

/-- C3 as stated fails: `Integer` on "123x" returns the values `'1'`,
`['1','2']`, `['1','2','3']`; the candidate of a single application carries the
bare byte `'1'`, and no candidate carries the one-element list `['1']`. -/
theorem Many_single_value_is_bare :
    Integer 4 (ascii "123x") = Except.ok
      [⟨Value.byte 49, ascii "23x"⟩,
       ⟨Value.list [Value.byte 49, Value.byte 50], ascii "3x"⟩,
       ⟨Value.list [Value.byte 49, Value.byte 50, Value.byte 51], ascii "x"⟩] ∧
    ∀ c ∈ candidates (Integer 4 (ascii "123x")),
      c.Result ≠ Value.list [Value.byte 49] := by
  refine ⟨rfl, ?_⟩
  intro c hc
  have h : c ∈ [(⟨Value.byte 49, ascii "23x"⟩ : ParseResult),
       ⟨Value.list [Value.byte 49, Value.byte 50], ascii "3x"⟩,
       ⟨Value.list [Value.byte 49, Value.byte 50, Value.byte 51], ascii "x"⟩] := hc
  simp only [List.mem_cons, List.mem_singleton, List.not_mem_nil, or_false] at h
  rcases h with rfl | rfl | rfl <;> simp

/-- C3, amended: every candidate of `Many(p)` and of `XMany(p)` comes from
`n ≥ 1` consecutive applications of `p` producing values `v1..vn` and leaving the
candidate's remainder, and conversely every such run of applications has its
candidate in `Many(p)`; the candidate's value is `v1` itself when `n = 1`, and
`cons(v1, value for v2..vn)` otherwise, which for `n ≥ 2` is the flat list
`[v1, ..., vn]` whenever the last value `vn` is not itself a generic list. -/
theorem repetition_value (p : Parser) (fuel : Nat) (input : List UInt8)
    (cs : List ParseResult) :
    (Many fuel p input = Except.ok cs →
      (∀ c ∈ cs, ∃ vs, Reps p input vs c.Remainder ∧ c.Result = manyValue vs) ∧
      (∀ vs rem, Reps p input vs rem → (⟨manyValue vs, rem⟩ : ParseResult) ∈ cs)) ∧
    (XMany fuel p input = Except.ok cs →
      ∀ c ∈ cs, ∃ vs, Reps p input vs c.Remainder ∧ c.Result = manyValue vs) ∧
    (∀ v, manyValue [v] = v) ∧
    (∀ vs : List Value, 2 ≤ vs.length →
      (∀ w, vs.getLast? = some w → ∀ l, w ≠ Value.list l) →
      manyValue vs = Value.list vs) :=
  ⟨fun h => ⟨Many_sound p fuel input cs h,
      fun vs rem hreps => Many_complete p input rem vs hreps fuel cs h⟩,
    XMany_sound p fuel input cs, fun _ => rfl, manyValue_flat⟩

/-- C3, amended, at `Integer` on "123x": the run `'1'`, `'2'` leaving "3x" has the
candidate with the flat value `['1','2']`. -/
theorem repetition_value_witness :
    Many 4 Digit (ascii "123x") = Except.ok
      [⟨Value.byte 49, ascii "23x"⟩,
       ⟨Value.list [Value.byte 49, Value.byte 50], ascii "3x"⟩,
       ⟨Value.list [Value.byte 49, Value.byte 50, Value.byte 51], ascii "x"⟩] ∧
    Reps Digit (ascii "123x") [Value.byte 49, Value.byte 50] (ascii "3x") ∧
    (⟨Value.list [Value.byte 49, Value.byte 50], ascii "3x"⟩ : ParseResult) ∈
      [(⟨Value.byte 49, ascii "23x"⟩ : ParseResult),
       ⟨Value.list [Value.byte 49, Value.byte 50], ascii "3x"⟩,
       ⟨Value.list [Value.byte 49, Value.byte 50, Value.byte 51], ascii "x"⟩] :=
  have hreps : Reps Digit (ascii "123x") [Value.byte 49, Value.byte 50] (ascii "3x") :=
    Reps.more (ascii "123x") [⟨Value.byte 49, ascii "23x"⟩] (Value.byte 49) (ascii "23x")
      [Value.byte 50] (ascii "3x") rfl (List.mem_singleton.mpr rfl)
      (Reps.one (ascii "23x") [⟨Value.byte 50, ascii "3x"⟩] (Value.byte 50) (ascii "3x")
        rfl (List.mem_singleton.mpr rfl))
  ⟨rfl, hreps,
    ((repetition_value Digit 4 (ascii "123x") _).1 rfl).2
      [Value.byte 49, Value.byte 50] (ascii "3x") hreps⟩

/-! ## `SeparateBy` -/

theorem IgnoreThen_single (g f : Parser) (x y z : List UInt8) (s v : Value)
    (hg : g x = Except.ok [⟨s, y⟩]) (hf : f y = Except.ok [⟨v, z⟩]) :
    IgnoreThen g f x = Except.ok [⟨v, z⟩] := by
  simp [IgnoreThen, Bind, bindLoop, hg, hf, Unit]

theorem IgnoreThen_fail (g f : Parser) (x : List UInt8) (hg : g x = Except.ok []) :
    IgnoreThen g f x = Except.ok [] := by
  simp [IgnoreThen, Bind, bindLoop, hg]

theorem SeparateBy_chain (f g : Parser) (m : Nat) (a b : Nat → List UInt8)
    (v s : Nat → Value)
    (hf : ∀ j, j < m + 2 → f (a j) = Except.ok [⟨v (j + 1), b (j + 1)⟩])
    (hg : ∀ j, 1 ≤ j → j < m + 2 → g (b j) = Except.ok [⟨s j, a j⟩])
    (hend : g (b (m + 2)) = Except.ok []) (fuel : Nat) (hfuel : m + 2 ≤ fuel) :
    SeparateBy fuel f g (a 0) = Except.ok
      [⟨Value.list [v 1, manyValue ((List.range (m + 1)).map (fun t => v (t + 2)))],
        b (m + 2)⟩] := by
  have hx := XMany_chain (IgnoreThen g f) (fun t => b (t + 1)) (fun t => v (t + 1))
    (m + 1) 0 fuel
    (fun t ht => by
      simp only [Nat.zero_add]
      exact IgnoreThen_single g f _ _ _ (s (t + 1)) _
        (hg (t + 1) (by omega) (by omega)) (hf (t + 1) (by omega)))
    (by
      simp only [Nat.zero_add]
      exact IgnoreThen_fail g f _ hend)
    (by omega)
  rw [if_neg (Nat.succ_ne_zero m)] at hx
  simp only [Nat.zero_add] at hx
  have h1 := hf 0 (by omega)
  simp only [Nat.zero_add] at h1
  have h := and_eq f (XMany fuel (IgnoreThen g f)) (a 0) _ h1
    (fun r hr => by
      rw [List.mem_singleton] at hr
      subst hr
      exact ⟨_, hx⟩)
  show and f (XMany fuel (IgnoreThen g f)) (a 0) = _
  rw [h]
  simp [pairStep, hx]

theorem getLast?_range_map (v : Nat → Value) (m : Nat) :
    ((List.range (m + 1)).map (fun t => v (t + 2))).getLast? = some (v (m + 2)) := by
  rw [List.getLast?_eq_getElem?, List.getElem?_map]
  simp

theorem SeparateBy_single_any_fuel :
    ∀ fuel, SeparateBy (fuel + 1) Digit (Literal (Value.byte 44)) (ascii "1;") =
      Except.ok [] := by
  intro fuel
  have hq : IgnoreThen (Literal (Value.byte 44)) Digit (ascii ";") = Except.ok [] := rfl
  have hx : XMany (fuel + 1) (IgnoreThen (Literal (Value.byte 44)) Digit) (ascii ";") =
      Except.ok [] := by
    have h := XMany_unfold fuel _ (ascii ";") [] hq (fun r hr => by cases hr)
    simpa [repeatStep_nil] using h
  have hd : Digit (ascii "1;") = Except.ok [⟨Value.byte 49, ascii ";"⟩] := rfl
  have h := and_eq Digit (XMany (fuel + 1) (IgnoreThen (Literal (Value.byte 44)) Digit))
    (ascii "1;") _ hd
    (fun r hr => by
      rw [List.mem_singleton] at hr
      subst hr
      exact ⟨_, hx⟩)
  show and Digit (XMany (fuel + 1) (IgnoreThen (Literal (Value.byte 44)) Digit))
    (ascii "1;") = _
  rw [h]
  simp [pairStep, hx]

/-- C4 as stated fails at `n = 1`: on "1;" (a single digit and no separator)
`SeparateBy(Digit, Literal(','))` returns the empty result set (here with the
recursion budget 4; every budget that lets the call return gives the same). -/
theorem SeparateBy_single_occurrence_fails :
    SeparateBy 4 Digit (Literal (Value.byte 44)) (ascii "1;") = Except.ok [] :=
  SeparateBy_single_any_fuel 3

/-- C4, amended: for every `n ≥ 2` and every input made of `n` occurrences of `f`
separated by `n - 1` occurrences of `g` and followed by a rest `b n` on which `g`
fails (`f (a j) = [(v (j+1), b (j+1))]` for `j < n`, `g (b j) = [(s j, a j)]` for
`1 ≤ j < n`, `g (b n) = []`), `SeparateBy(f, g)` applied to `a 0` returns, for
every recursion budget of at least `n`, a non-empty result set: exactly one
candidate, whose remainder is the rest. -/
theorem SeparateBy_two_or_more (f g : Parser) (n : Nat) (a b : Nat → List UInt8)
    (v s : Nat → Value) (hn : 2 ≤ n)
    (hf : ∀ j, j < n → f (a j) = Except.ok [⟨v (j + 1), b (j + 1)⟩])
    (hg : ∀ j, 1 ≤ j → j < n → g (b j) = Except.ok [⟨s j, a j⟩])
    (hend : g (b n) = Except.ok []) (fuel : Nat) (hfuel : n ≤ fuel) :
    ∃ c, SeparateBy fuel f g (a 0) = Except.ok [c] ∧ c.Remainder = b n := by
  obtain ⟨m, rfl⟩ : ∃ m, n = m + 2 := ⟨n - 2, by omega⟩
  exact ⟨_, SeparateBy_chain f g m a b v s hf hg hend fuel hfuel, rfl⟩

/-- C4, amended, at `SeparateBy(Digit, Literal(','))` on "1,2;": one candidate,
with remainder ";". -/
theorem SeparateBy_two_or_more_witness :
    ∃ c, SeparateBy 2 Digit (Literal (Value.byte 44)) (ascii "1,2;") = Except.ok [c] ∧
      c.Remainder = ascii ";" :=
  SeparateBy_two_or_more Digit (Literal (Value.byte 44)) 2
    (fun j => (ascii "1,2;").drop (2 * j)) (fun j => (ascii "1,2;").drop (2 * j - 1))
    (fun j => Value.byte (48 + j).toUInt8) (fun _ => Value.byte 44) (by decide)
    (fun j hj => by interval_cases j <;> rfl)
    (fun j h1 hj => by interval_cases j; rfl) rfl 2 (by decide)

/-- C5 as stated fails: on "1,2,3;" the single candidate of
`SeparateBy(Digit, Literal(','))` has the nested value `['1', ['2','3']]`, which
is not the flat sequence `['1','2','3']`. -/
theorem SeparateBy_nested_composite :
    SeparateBy 3 Digit (Literal (Value.byte 44)) (ascii "1,2,3;") = Except.ok
      [⟨Value.list [Value.byte 49, Value.list [Value.byte 50, Value.byte 51]],
        ascii ";"⟩] ∧
    Value.list [Value.byte 49, Value.list [Value.byte 50, Value.byte 51]] ≠
      Value.list [Value.byte 49, Value.byte 50, Value.byte 51] := by
  refine ⟨rfl, ?_⟩
  simp

/-- C5, amended: for `n ≥ 2` occurrences of `f` separated by `g` (the chain of
C4), `SeparateBy(f, g)` returns exactly one candidate, with the rest as
remainder and with the 2-element composite `[v1, t]` as value, where `t` is the
value that `XMany` builds from `v2..vn`: `v2` itself when `n = 2`, and the list
`[v2, ..., vn]` when `n ≥ 3` and `vn` is not itself a generic list.  No value of
the separator `g` occurs in it.  On "1,2,3;" the value is `['1', ['2','3']]`. -/
theorem SeparateBy_value (f g : Parser) (n : Nat) (a b : Nat → List UInt8)
    (v s : Nat → Value) (hn : 2 ≤ n)
    (hf : ∀ j, j < n → f (a j) = Except.ok [⟨v (j + 1), b (j + 1)⟩])
    (hg : ∀ j, 1 ≤ j → j < n → g (b j) = Except.ok [⟨s j, a j⟩])
    (hend : g (b n) = Except.ok []) (fuel : Nat) (hfuel : n ≤ fuel) :
    ∃ t, SeparateBy fuel f g (a 0) = Except.ok [⟨Value.list [v 1, t], b n⟩] ∧
      (n = 2 → t = v 2) ∧
      (3 ≤ n → (∀ l, v n ≠ Value.list l) →
        t = Value.list ((List.range (n - 1)).map (fun u => v (u + 2)))) := by
  obtain ⟨m, rfl⟩ : ∃ m, n = m + 2 := ⟨n - 2, by omega⟩
  refine ⟨_, SeparateBy_chain f g m a b v s hf hg hend fuel hfuel, ?_, ?_⟩
  · intro h2
    have hm : m = 0 := by omega
    subst hm
    rfl
  · intro h3 hlast
    apply manyValue_flat
    · simp; omega
    · intro w hw
      rw [getLast?_range_map] at hw
      cases hw
      exact hlast

/-- C5, amended, at `SeparateBy(Digit, Literal(','))` on "1,2,3;". -/
theorem SeparateBy_value_witness :
    ∃ t, SeparateBy 3 Digit (Literal (Value.byte 44)) (ascii "1,2,3;") =
        Except.ok [⟨Value.list [Value.byte 49, t], ascii ";"⟩] ∧
      ((3 : Nat) = 2 → t = Value.byte 50) ∧
      (3 ≤ 3 → (∀ l, Value.byte 51 ≠ Value.list l) →
        t = Value.list [Value.byte 50, Value.byte 51]) :=
  SeparateBy_value Digit (Literal (Value.byte 44)) 3
    (fun j => (ascii "1,2,3;").drop (2 * j)) (fun j => (ascii "1,2,3;").drop (2 * j - 1))
    (fun j => Value.byte (48 + j).toUInt8) (fun _ => Value.byte 44) (by decide)
    (fun j hj => by interval_cases j <;> rfl)
    (fun j h1 hj => by interval_cases j <;> rfl) rfl 3 (by decide)

/-! ## Termination of `Many` and `XMany` -/

theorem repeatStep_congr (g h : Parser) (rs : List ParseResult)
    (hgh : ∀ r ∈ rs, candidates (g r.Remainder) = candidates (h r.Remainder)) :
    repeatStep g rs = repeatStep h rs := by
  unfold repeatStep
  apply List.flatMap_congr
  intro r hr
  rw [hgh r hr]

theorem Many_fuel_succ (p : Parser) : ∀ (n : Nat) (input : List UInt8)
    (cs : List ParseResult), Many n p input = Except.ok cs →
    Many (n + 1) p input = Except.ok cs := by
  intro n
  induction n with
  | zero => intro input cs h; cases h
  | succ n ih =>
    intro input cs h
    obtain ⟨rs, hp, hrec, rfl⟩ := Many_eq_of_ok n p input cs h
    have hnext : ∀ r ∈ rs, Many (n + 1) p r.Remainder =
        Except.ok (candidates (Many n p r.Remainder)) :=
      fun r hr => ih _ _ (hrec r hr)
    rw [Many_unfold (n + 1) p input rs hp (fun r hr => ⟨_, hnext r hr⟩)]
    rw [repeatStep_congr (Many (n + 1) p) (Many n p) rs
      (fun r hr => by rw [hnext r hr]; rfl)]

theorem XMany_fuel_succ (p : Parser) : ∀ (n : Nat) (input : List UInt8)
    (cs : List ParseResult), XMany n p input = Except.ok cs →
    XMany (n + 1) p input = Except.ok cs := by
  intro n
  induction n with
  | zero => intro input cs h; cases h
  | succ n ih =>
    intro input cs h
    obtain ⟨rs, hp, hrec, rfl⟩ := XMany_eq_of_ok n p input cs h
    have hnext : ∀ r ∈ rs, XMany (n + 1) p r.Remainder =
        Except.ok (candidates (XMany n p r.Remainder)) :=
      fun r hr => ih _ _ (hrec r hr)
    rw [XMany_unfold (n + 1) p input rs hp (fun r hr => ⟨_, hnext r hr⟩)]
    rw [repeatStep_congr (XMany (n + 1) p) (XMany n p) rs
      (fun r hr => by rw [hnext r hr]; rfl)]

theorem Many_fuel_mono (p : Parser) (input : List UInt8) (cs : List ParseResult)
    (n : Nat) (h : Many n p input = Except.ok cs) :
    ∀ m, n ≤ m → Many m p input = Except.ok cs := by
  intro m hm
  induction m, hm using Nat.le_induction with
  | base => exact h
  | succ k _ ih => exact Many_fuel_succ p k input cs ih

theorem XMany_fuel_mono (p : Parser) (input : List UInt8) (cs : List ParseResult)
    (n : Nat) (h : XMany n p input = Except.ok cs) :
    ∀ m, n ≤ m → XMany m p input = Except.ok cs := by
  intro m hm
  induction m, hm using Nat.le_induction with
  | base => exact h
  | succ k _ ih => exact XMany_fuel_succ p k input cs ih

theorem Many_returns (p : Parser) (htotal : ∀ input, ∃ rs, p input = Except.ok rs)
    (hcons : ∀ input rs, p input = Except.ok rs →
      ∀ r ∈ rs, r.Remainder.length < input.length) :
    ∀ (fuel : Nat) (input : List UInt8), input.length < fuel →
      ∃ cs, Many fuel p input = Except.ok cs := by
  intro fuel
  induction fuel with
  | zero => intro input h; cases h
  | succ n ih =>
    intro input hlen
    obtain ⟨rs, hp⟩ := htotal input
    exact ⟨_, Many_unfold n p input rs hp
      (fun r hr => ih r.Remainder (by have := hcons input rs hp r hr; omega))⟩

theorem XMany_returns (p : Parser) (htotal : ∀ input, ∃ rs, p input = Except.ok rs)
    (hcons : ∀ input rs, p input = Except.ok rs →
      ∀ r ∈ rs, r.Remainder.length < input.length) :
    ∀ (fuel : Nat) (input : List UInt8), input.length < fuel →
      ∃ cs, XMany fuel p input = Except.ok cs := by
  intro fuel
  induction fuel with
  | zero => intro input h; cases h
  | succ n ih =>
    intro input hlen
    obtain ⟨rs, hp⟩ := htotal input
    exact ⟨_, XMany_unfold n p input rs hp
      (fun r hr => ih r.Remainder (by have := hcons input rs hp r hr; omega))⟩

theorem wrapUnicodePredicate_cases (q : Nat → Bool) (input : List UInt8) :
    wrapUnicodePredicate q input = Except.ok [] ∨
    ∃ first rest, input = first :: rest ∧
      wrapUnicodePredicate q input = Except.ok [⟨Value.byte first, rest⟩] := by
  cases input with
  | nil => exact Or.inl rfl
  | cons first rest =>
    cases hq : q first.toNat with
    | false =>
      left
      simp [wrapUnicodePredicate, Pred, hq, Fail]
    | true =>
      right
      exact ⟨first, rest, rfl, by simp [wrapUnicodePredicate, Pred, hq, Unit]⟩

theorem wrapUnicodePredicate_total (q : Nat → Bool) (input : List UInt8) :
    ∃ rs, wrapUnicodePredicate q input = Except.ok rs := by
  rcases wrapUnicodePredicate_cases q input with h | ⟨_, _, _, h⟩
  · exact ⟨_, h⟩
  · exact ⟨_, h⟩

theorem wrapUnicodePredicate_consuming (q : Nat → Bool) (input : List UInt8)
    (rs : List ParseResult) (h : wrapUnicodePredicate q input = Except.ok rs) :
    ∀ r ∈ rs, r.Remainder.length < input.length := by
  intro r hr
  rcases wrapUnicodePredicate_cases q input with h2 | ⟨first, rest, hin, h2⟩
  · rw [h2] at h
    cases Except.ok.inj h
    cases hr
  · rw [h2] at h
    cases Except.ok.inj h
    rw [List.mem_singleton] at hr
    subst hr
    subst hin
    simp

/-- C6: for every parser `p` that returns on every input and whose candidates all
have a remainder strictly shorter than the input, and for every input, the
evaluations of `Many(p)` and `XMany(p)` return: any recursion budget above the
input length lets both calls return, and the results do not depend on the
budget. -/
theorem Many_XMany_terminate (p : Parser)
    (htotal : ∀ input, ∃ rs, p input = Except.ok rs)
    (hcons : ∀ input rs, p input = Except.ok rs →
      ∀ r ∈ rs, r.Remainder.length < input.length)
    (input : List UInt8) :
    ∃ ms xs, ∀ fuel, input.length < fuel →
      Many fuel p input = Except.ok ms ∧ XMany fuel p input = Except.ok xs := by
  obtain ⟨ms, hms⟩ := Many_returns p htotal hcons (input.length + 1) input (Nat.lt_succ_self _)
  obtain ⟨xs, hxs⟩ := XMany_returns p htotal hcons (input.length + 1) input (Nat.lt_succ_self _)
  exact ⟨ms, xs, fun fuel hfuel =>
    ⟨Many_fuel_mono p input ms _ hms fuel hfuel,
      XMany_fuel_mono p input xs _ hxs fuel hfuel⟩⟩

/-- C6 at `Digit` on "123x": `Many(Digit)` and `XMany(Digit)` return for every
recursion budget above 4. -/
theorem Many_XMany_terminate_witness :
    ∃ ms xs, ∀ fuel, (ascii "123x").length < fuel →
      Many fuel Digit (ascii "123x") = Except.ok ms ∧
      XMany fuel Digit (ascii "123x") = Except.ok xs :=
  Many_XMany_terminate Digit (wrapUnicodePredicate_total unicodeIsDigit)
    (wrapUnicodePredicate_consuming unicodeIsDigit) (ascii "123x")

/-! ## The remainder-is-suffix invariant -/

theorem Bind_mem (f : Parser) (g : ParserGenerator) (input : List UInt8)
    (res : List ParseResult) (h : Bind f g input = Except.ok res) (c : ParseResult)
    (hc : c ∈ res) :
    ∃ rs, f input = Except.ok rs ∧ ∃ r ∈ rs, ∃ o,
      g r.Result r.Remainder = Except.ok o ∧ c ∈ o := by
  obtain ⟨rs, hf, hg⟩ := Bind_inv f g input res h
  have h2 := Bind_eq f g input rs hf hg
  rw [h] at h2
  cases Except.ok.inj h2
  obtain ⟨r, hr, hcr⟩ := List.mem_flatMap.mp hc
  exact ⟨rs, hf, r, hr, _, eq_ok_candidates (hg r hr), hcr⟩

theorem SuffixSafe_Unit (v : Value) : SuffixSafe (Unit v) := by
  intro input rs h r hr
  cases Except.ok.inj h
  rw [List.mem_singleton] at hr
  subst hr
  exact List.suffix_refl input

theorem SuffixSafe_Fail : SuffixSafe Fail := by
  intro input rs h r hr
  cases Except.ok.inj h
  cases hr

theorem SuffixSafe_Pred (pr : Predicate) : SuffixSafe (Pred pr) := by
  intro input rs h r hr
  cases input with
  | nil => exact SuffixSafe_Fail [] rs h r hr
  | cons first rest =>
    cases hp : pr (Value.byte first) with
    | error e => simp [Pred, hp] at h
    | ok holds =>
      cases holds with
      | false =>
        simp only [Pred, hp, ok_bind, Bool.false_eq_true, if_false] at h
        exact SuffixSafe_Fail _ rs h r hr
      | true =>
        simp only [Pred, hp, ok_bind, if_true] at h
        exact (SuffixSafe_Unit _ rest rs h r hr).trans (List.suffix_cons first rest)

theorem SuffixSafe_Bind (p : Parser) (f : ParserGenerator) (hp : SuffixSafe p)
    (hf : ∀ v, SuffixSafe (f v)) : SuffixSafe (Bind p f) := by
  intro input res h c hc
  obtain ⟨rs, hrs, r, hr, o, ho, hco⟩ := Bind_mem p f input res h c hc
  exact (hf r.Result r.Remainder o ho c hco).trans (hp input rs hrs r hr)

theorem SuffixSafe_Using (p : Parser) (g : Value → Except Fault Value)
    (hp : SuffixSafe p) : SuffixSafe (Using p g) := by
  apply SuffixSafe_Bind p _ hp
  intro v input rs h r hr
  cases hg : g v with
  | error e => simp [hg] at h
  | ok y =>
    simp only [hg, ok_bind] at h
    exact SuffixSafe_Unit y input rs h r hr

theorem SuffixSafe_or (p q : Parser) (hp : SuffixSafe p) (hq : SuffixSafe q) :
    SuffixSafe (or p q) := by
  intro input res h c hc
  obtain ⟨a, b, ha, hb, rfl⟩ := or_inv p q input res h
  rcases List.mem_append.mp hc with hc | hc
  · exact hp input a ha c hc
  · exact hq input b hb c hc

theorem SuffixSafe_xor (p q : Parser) (hp : SuffixSafe p) (hq : SuffixSafe q) :
    SuffixSafe (xor p q) := by
  intro input res h c hc
  cases ha : p input with
  | error e => simp [xor, ha] at h
  | ok a =>
    rw [xor_eq p q input a ha] at h
    split at h
    · have e := Except.ok.inj h
      rw [← e] at hc
      exact hp input a ha c hc
    · exact hq input res h c hc

theorem SuffixSafe_and (p q : Parser) (hp : SuffixSafe p) (hq : SuffixSafe q) :
    SuffixSafe (and p q) :=
  SuffixSafe_Bind p _ hp (fun _ => SuffixSafe_Bind q _ hq (fun _ => SuffixSafe_Unit _))

theorem SuffixSafe_ThenIgnore (p q : Parser) (hp : SuffixSafe p) (hq : SuffixSafe q) :
    SuffixSafe (ThenIgnore p q) :=
  SuffixSafe_Bind p _ hp (fun _ => SuffixSafe_Bind q _ hq (fun _ => SuffixSafe_Unit _))

theorem SuffixSafe_IgnoreThen (p q : Parser) (hp : SuffixSafe p) (hq : SuffixSafe q) :
    SuffixSafe (IgnoreThen p q) :=
  SuffixSafe_Bind p _ hp (fun _ => SuffixSafe_Bind q _ hq (fun _ => SuffixSafe_Unit _))

theorem SuffixSafe_foldl (op : Parser → Parser → Parser)
    (hop : ∀ p q, SuffixSafe p → SuffixSafe q → SuffixSafe (op p q)) :
    ∀ (ps : List Parser) (acc : Parser), SuffixSafe acc → (∀ p ∈ ps, SuffixSafe p) →
      SuffixSafe (ps.foldl op acc) := by
  intro ps
  induction ps with
  | nil => intro acc hacc _; exact hacc
  | cons q rest ih =>
    intro acc hacc hall
    exact ih (op acc q) (hop acc q hacc (hall q (List.mem_cons_self q rest)))
      (fun p hp => hall p (List.mem_cons_of_mem q hp))

theorem SuffixSafe_fold (op : Parser → Parser → Parser)
    (hop : ∀ p q, SuffixSafe p → SuffixSafe q → SuffixSafe (op p q))
    (ps : List Parser) (hall : ∀ p ∈ ps, SuffixSafe p) : SuffixSafe (fold op ps) := by
  cases ps with
  | nil => intro input rs h; cases h
  | cons p rest =>
    exact SuffixSafe_foldl op hop rest p (hall p (List.mem_cons_self p rest))
      (fun q hq => hall q (List.mem_cons_of_mem p hq))

theorem Reps_suffix (p : Parser) (hp : SuffixSafe p) (input rem : List UInt8)
    (vs : List Value) (h : Reps p input vs rem) : rem <:+ input := by
  induction h with
  | one input rs v rem hrs hmem => exact hp input rs hrs _ hmem
  | more input rs v mid vs rem hrs hmem _ ih => exact ih.trans (hp input rs hrs _ hmem)

theorem SuffixSafe_Many (n : Nat) (p : Parser) (hp : SuffixSafe p) :
    SuffixSafe (Many n p) := by
  intro input cs h c hc
  obtain ⟨vs, hreps, _⟩ := Many_sound p n input cs h c hc
  exact Reps_suffix p hp input c.Remainder vs hreps

theorem SuffixSafe_XMany (n : Nat) (p : Parser) (hp : SuffixSafe p) :
    SuffixSafe (XMany n p) := by
  intro input cs h c hc
  obtain ⟨vs, hreps, _⟩ := XMany_sound p n input cs h c hc
  exact Reps_suffix p hp input c.Remainder vs hreps

theorem SuffixSafe_wrapUnicodePredicate (q : Nat → Bool) :
    SuffixSafe (wrapUnicodePredicate q) := SuffixSafe_Pred _

theorem SuffixSafe_Letter : SuffixSafe Letter :=
  SuffixSafe_wrapUnicodePredicate unicodeIsLetter

theorem SuffixSafe_Digit : SuffixSafe Digit :=
  SuffixSafe_wrapUnicodePredicate unicodeIsDigit

/-- C7: the remainder-is-suffix invariant.  `Unit(v)`, `Fail` and `Pred(pr)`
return only candidates whose remainder is a suffix of the given input, and the
property is preserved by `Bind`, `Using`, `Or`, `Xor`, `And` (for any argument
list, the binary case included), `ThenIgnore`, `IgnoreThen`, `Many` and `XMany`;
hence `Letter`, `Digit`, `Whitespace`, `Word` and `Integer` have it. -/
theorem remainder_is_suffix :
    (∀ v, SuffixSafe (Unit v)) ∧ SuffixSafe Fail ∧ (∀ pr, SuffixSafe (Pred pr)) ∧
    (∀ p f, SuffixSafe p → (∀ v, SuffixSafe (f v)) → SuffixSafe (Bind p f)) ∧
    (∀ p g, SuffixSafe p → SuffixSafe (Using p g)) ∧
    (∀ ps, (∀ p ∈ ps, SuffixSafe p) → SuffixSafe (Or ps)) ∧
    (∀ ps, (∀ p ∈ ps, SuffixSafe p) → SuffixSafe (Xor ps)) ∧
    (∀ ps, (∀ p ∈ ps, SuffixSafe p) → SuffixSafe (And ps)) ∧
    (∀ p q, SuffixSafe p → SuffixSafe q → SuffixSafe (ThenIgnore p q)) ∧
    (∀ p q, SuffixSafe p → SuffixSafe q → SuffixSafe (IgnoreThen p q)) ∧
    (∀ n p, SuffixSafe p → SuffixSafe (Many n p)) ∧
    (∀ n p, SuffixSafe p → SuffixSafe (XMany n p)) ∧
    SuffixSafe Letter ∧ SuffixSafe Digit ∧ (∀ n, SuffixSafe (Whitespace n)) ∧
    (∀ n, SuffixSafe (Word n)) ∧ (∀ n, SuffixSafe (Integer n)) :=
  ⟨SuffixSafe_Unit, SuffixSafe_Fail, SuffixSafe_Pred, SuffixSafe_Bind, SuffixSafe_Using,
    SuffixSafe_fold or SuffixSafe_or, SuffixSafe_fold xor SuffixSafe_xor,
    SuffixSafe_fold and SuffixSafe_and, SuffixSafe_ThenIgnore, SuffixSafe_IgnoreThen,
    SuffixSafe_Many, SuffixSafe_XMany, SuffixSafe_Letter, SuffixSafe_Digit,
    fun n => SuffixSafe_Many n _ (SuffixSafe_wrapUnicodePredicate unicodeIsSpace),
    fun n => SuffixSafe_XMany n _ SuffixSafe_Letter,
    fun n => SuffixSafe_Many n _ SuffixSafe_Digit⟩

/-- C7 at `Many(Digit)` on "123x": the remainder "3x" of the second candidate is a
suffix of the input. -/
theorem remainder_is_suffix_witness : ascii "3x" <:+ ascii "123x" :=
  remainder_is_suffix.2.2.2.2.2.2.2.2.2.2.1 4 Digit
    remainder_is_suffix.2.2.2.2.2.2.2.2.2.2.2.2.2.1 (ascii "123x")
    [⟨Value.byte 49, ascii "23x"⟩,
     ⟨Value.list [Value.byte 49, Value.byte 50], ascii "3x"⟩,
     ⟨Value.list [Value.byte 49, Value.byte 50, Value.byte 51], ascii "x"⟩]
    rfl ⟨Value.list [Value.byte 49, Value.byte 50], ascii "3x"⟩
    (List.mem_cons_of_mem _ (List.mem_cons_self _ _))

/-! ## `Bind` and `Or` as list operations -/

/-- C8: `Bind(p, f)` is the list flat-map of `p`'s candidates: if `p(input)`
returns the candidates `rs`, and `f(v)(rem)` returns the list `out (v, rem)` for
each candidate `(v, rem)` of `rs`, then `Bind(p, f)(input)` returns the
concatenation of the lists `out r` for `r` in `rs`, in the order of `rs`, each
list in its own order. -/
theorem Bind_is_flatMap (p : Parser) (f : ParserGenerator) (input : List UInt8)
    (rs : List ParseResult) (out : ParseResult → List ParseResult)
    (hp : p input = Except.ok rs)
    (hf : ∀ r ∈ rs, f r.Result r.Remainder = Except.ok (out r)) :
    Bind p f input = Except.ok (rs.flatMap out) := by
  have h := bindLoop_ok f out rs [] hf
  simp [Bind, hp, h]

/-- C8 at `Bind(Many(Digit), v ↦ Digit)` on "123x": the three candidates of
`Many(Digit)` are continued by `Digit` on "23x", "3x" and "x", in this order. -/
theorem Bind_is_flatMap_witness :
    Bind (Many 4 Digit) (fun _ => Digit) (ascii "123x") = Except.ok
      [⟨Value.byte 50, ascii "3x"⟩, ⟨Value.byte 51, ascii "x"⟩] :=
  Bind_is_flatMap (Many 4 Digit) (fun _ => Digit) (ascii "123x")
    [⟨Value.byte 49, ascii "23x"⟩,
     ⟨Value.list [Value.byte 49, Value.byte 50], ascii "3x"⟩,
     ⟨Value.list [Value.byte 49, Value.byte 50, Value.byte 51], ascii "x"⟩]
    (fun r => candidates (Digit r.Remainder)) rfl
    (fun r hr => by
      simp only [List.mem_cons, List.mem_singleton, List.not_mem_nil, or_false] at hr
      rcases hr with rfl | rfl | rfl <;> rfl)

theorem bind_ok_append_nil (x : Except Fault (List ParseResult)) :
    (x >>= fun a => Except.ok (a ++ [])) = x := by
  cases x with
  | error e => rfl
  | ok a => simp

theorem bind_ok_nil_append (x : Except Fault (List ParseResult)) :
    (x >>= fun a => (Except.ok ([] ++ a) : Except Fault (List ParseResult))) = x := by
  cases x with
  | error e => rfl
  | ok a => simp

/-- C9: the identity laws of `Bind`.  For every value `v`, generator `f` and
input, `Bind(Unit(v), f)(input) = f(v)(input)` and
`Bind(Fail, f)(input) = Fail(input) = []`; and `Bind(p, f)(input)` is empty
whenever `p(input)` is empty. -/
theorem Bind_identity_laws :
    (∀ (v : Value) (f : ParserGenerator) (input : List UInt8),
      Bind (Unit v) f input = f v input) ∧
    (∀ (f : ParserGenerator) (input : List UInt8),
      Bind Fail f input = Fail input ∧ Fail input = Except.ok []) ∧
    (∀ (p : Parser) (f : ParserGenerator) (input : List UInt8),
      p input = Except.ok [] → Bind p f input = Except.ok []) := by
  refine ⟨?_, ?_, ?_⟩
  · intro v f input
    show (f v input >>= fun more => bindLoop f [] ([] ++ more)) = f v input
    exact bind_ok_nil_append (f v input)
  · intro f input
    exact ⟨rfl, rfl⟩
  · intro p f input hp
    simp [Bind, hp, bindLoop]

/-- C9 at `Digit` on "x": `Digit` fails there, and so does `Bind(Digit, f)`. -/
theorem Bind_identity_laws_witness :
    Bind Digit (fun v => Unit v) (ascii "x") = Except.ok [] :=
  Bind_identity_laws.2.2 Digit (fun v => Unit v) (ascii "x") rfl

theorem foldl_or_eq (input : List UInt8) :
    ∀ (ps : List Parser) (outs : List (List ParseResult)) (acc : Parser)
      (accOut : List ParseResult), acc input = Except.ok accOut →
      List.Forall₂ (fun q o => q input = Except.ok o) ps outs →
      (ps.foldl or acc) input = Except.ok (accOut ++ outs.flatten) := by
  intro ps
  induction ps with
  | nil =>
    intro outs acc accOut hacc h
    cases h
    simpa using hacc
  | cons q rest ih =>
    intro outs acc accOut hacc h
    cases h with
    | cons hq hrest =>
      rw [List.foldl_cons, ih _ (or acc q) (accOut ++ _) (or_eq acc q input _ _ hacc hq) hrest]
      simp [List.append_assoc]

/-- C10: for every non-empty list of parsers `p1..pn` and every input on which
they return `o1..on`, `Or(p1, ..., pn)(input)` returns `o1 ++ ... ++ on`, all
applied to the same input, in left-to-right order; and `Fail` is a two-sided
identity: `Or(p, Fail)(input) = p(input) = Or(Fail, p)(input)`. -/
theorem Or_is_concatenation :
    (∀ (p : Parser) (ps : List Parser) (input : List UInt8)
      (outs : List (List ParseResult)),
      List.Forall₂ (fun q o => q input = Except.ok o) (p :: ps) outs →
      Or (p :: ps) input = Except.ok outs.flatten) ∧
    (∀ (p : Parser) (input : List UInt8),
      Or [p, Fail] input = p input ∧ Or [Fail, p] input = p input) := by
  constructor
  · intro p ps input outs h
    cases h with
    | cons hp hrest =>
      show (ps.foldl or p) input = _
      rw [foldl_or_eq input ps _ p _ hp hrest]
      rfl
  · intro p input
    exact ⟨bind_ok_append_nil (p input), bind_ok_nil_append (p input)⟩

/-- C10 at `Or(Digit, Letter, Digit)` on "1x": the candidates of the three
parsers, in this order. -/
theorem Or_is_concatenation_witness :
    Or [Digit, Letter, Digit] (ascii "1x") = Except.ok
      [⟨Value.byte 49, ascii "x"⟩, ⟨Value.byte 49, ascii "x"⟩] :=
  Or_is_concatenation.1 Digit [Letter, Digit] (ascii "1x")
    [[⟨Value.byte 49, ascii "x"⟩], [], [⟨Value.byte 49, ascii "x"⟩]]
    (List.Forall₂.cons rfl (List.Forall₂.cons rfl (List.Forall₂.cons rfl List.Forall₂.nil)))

/-! ## Deterministic alternation, the primitives and binary sequencing -/

/-- C11: for all parsers `p`, `q` and every input on which `p` returns the
candidates `a`: `Xor(p, q)(input)` is `p(input)` when `a` is non-empty, and
`q(input)` otherwise. -/
theorem Xor_first_success (p q : Parser) (input : List UInt8) (a : List ParseResult)
    (hp : p input = Except.ok a) :
    (a ≠ [] → Xor [p, q] input = p input) ∧ (a = [] → Xor [p, q] input = q input) := by
  have h : Xor [p, q] input = if a.length > 0 then Except.ok a else q input :=
    xor_eq p q input a hp
  constructor
  · intro hne
    rw [h, hp, if_pos (List.length_pos.mpr hne)]
  · intro hnil
    subst hnil
    rw [h]
    rfl

/-- C11 at `Xor(Digit, Letter)` on "1x" and on "x1": the first is `Digit`'s
result, the second falls through to `Letter`. -/
theorem Xor_first_success_witness :
    Xor [Digit, Letter] (ascii "1x") = Digit (ascii "1x") ∧
    Xor [Digit, Letter] (ascii "x1") = Letter (ascii "x1") :=
  ⟨(Xor_first_success Digit Letter (ascii "1x") [⟨Value.byte 49, ascii "x"⟩] rfl).1
      (List.cons_ne_nil _ _),
    (Xor_first_success Digit Letter (ascii "x1") [] rfl).2 rfl⟩

/-- C12: for every value `v` and every input, the empty one included,
`Unit(v)(input)` is the one-element list `[(v, input)]`: it always succeeds,
consumes nothing and leaves the input unchanged as the remainder. -/
theorem Unit_single_candidate (v : Value) (input : List UInt8) :
    Unit v input = Except.ok [⟨v, input⟩] ∧ Unit v [] = Except.ok [⟨v, []⟩] :=
  ⟨rfl, rfl⟩

theorem interfaceEq_byte (first : UInt8) (x : Value) :
    interfaceEq (Value.byte first) x = Except.ok true ∧ Value.byte first = x ∨
    interfaceEq (Value.byte first) x = Except.ok false ∧ Value.byte first ≠ x := by
  cases x with
  | byte b =>
    by_cases h : first = b
    · left
      subst h
      exact ⟨by simp [interfaceEq], rfl⟩
    · right
      refine ⟨by simp [interfaceEq, h], ?_⟩
      intro heq
      exact h (Value.byte.inj heq)
  | list xs => right; exact ⟨rfl, by intro h; cases h⟩
  | bytes bs => right; exact ⟨rfl, by intro h; cases h⟩
  | other t => right; exact ⟨rfl, by intro h; cases h⟩

/-- C13: for every value `x` and every input, `Literal(x)(input)` is `[(x, rest)]`
when the input is `first :: rest` and the byte `first`, as an interface value,
equals `x`; and it is `[]` when the input is empty or its first byte differs
from `x`.  A value `x` of another dynamic type than `byte` equals no byte, so
`Literal(x)` then fails on every input. -/
theorem Literal_matches_first_byte (x : Value) :
    Literal x [] = Except.ok [] ∧
    (∀ first rest, Value.byte first = x →
      Literal x (first :: rest) = Except.ok [⟨x, rest⟩]) ∧
    (∀ first rest, Value.byte first ≠ x → Literal x (first :: rest) = Except.ok []) ∧
    ((∀ b, x ≠ Value.byte b) → ∀ input, Literal x input = Except.ok []) := by
  have hne : ∀ first rest, Value.byte first ≠ x →
      Literal x (first :: rest) = Except.ok [] := by
    intro first rest hne
    rcases interfaceEq_byte first x with ⟨_, heq⟩ | ⟨h, _⟩
    · exact absurd heq hne
    · simp [Literal, Pred, h, Fail]
  refine ⟨rfl, ?_, hne, ?_⟩
  · intro first rest heq
    rcases interfaceEq_byte first x with ⟨h, _⟩ | ⟨_, hne⟩
    · subst heq
      simp [Literal, Pred, h, Unit]
    · exact absurd heq hne
  · intro hx input
    cases input with
    | nil => rfl
    | cons first rest => exact hne first rest (fun h => hx first h.symm)

/-- C13 at `Literal('a')`, the literal being the byte `'a'`: on "abc" it yields
exactly `('a', "bc")`, and on "xbc" the empty set. -/
theorem Literal_matches_first_byte_witness :
    Literal (Value.byte 97) (ascii "abc") = Except.ok [⟨Value.byte 97, ascii "bc"⟩] ∧
    Literal (Value.byte 97) (ascii "xbc") = Except.ok [] :=
  ⟨(Literal_matches_first_byte (Value.byte 97)).2.1 97 (ascii "bc") rfl,
    (Literal_matches_first_byte (Value.byte 97)).2.2.1 120 (ascii "bc")
      (by intro h; exact absurd (Value.byte.inj h) (by decide))⟩

/-- C14: for all parsers `p`, `q` and every input, if `p(input)` returns `rs` and
`q` returns `out r` on the remainder of each candidate `r` of `rs`, then binary
`And(p, q)(input)` returns the list, over the candidates `(v, r)` of `rs` in
order and then over the candidates `(w, r2)` of `q(r)` in order, of the
2-element composite `[v, w]` with remainder `r2`. -/
theorem And_is_sequencing (p q : Parser) (input : List UInt8) (rs : List ParseResult)
    (out : ParseResult → List ParseResult) (hp : p input = Except.ok rs)
    (hq : ∀ r ∈ rs, q r.Remainder = Except.ok (out r)) :
    And [p, q] input = Except.ok (rs.flatMap (fun r =>
      (out r).map (fun s => ⟨Value.list [r.Result, s.Result], s.Remainder⟩))) := by
  have h : And [p, q] input = Except.ok (pairStep q rs) :=
    and_eq p q input rs hp (fun r hr => ⟨_, hq r hr⟩)
  rw [h]
  unfold pairStep
  congr 1
  apply List.flatMap_congr
  intro r hr
  rw [hq r hr]
  rfl

/-- C14 at `And(Many(Digit), Digit)` on "123x": `Digit` continues from where each
candidate of `Many(Digit)` left off. -/
theorem And_is_sequencing_witness :
    And [Many 4 Digit, Digit] (ascii "123x") = Except.ok
      [⟨Value.list [Value.byte 49, Value.byte 50], ascii "3x"⟩,
       ⟨Value.list [Value.list [Value.byte 49, Value.byte 50], Value.byte 51],
        ascii "x"⟩] :=
  And_is_sequencing (Many 4 Digit) Digit (ascii "123x")
    [⟨Value.byte 49, ascii "23x"⟩,
     ⟨Value.list [Value.byte 49, Value.byte 50], ascii "3x"⟩,
     ⟨Value.list [Value.byte 49, Value.byte 50, Value.byte 51], ascii "x"⟩]
    (fun r => candidates (Digit r.Remainder)) rfl
    (fun r hr => by
      simp only [List.mem_cons, List.mem_singleton, List.not_mem_nil, or_false] at hr
      rcases hr with rfl | rfl | rfl <;> rfl)

/-! ## The nesting of an n-ary `And` -/

theorem mem_pairStep_iff {g : Parser} {rs : List ParseResult} {c : ParseResult} :
    c ∈ pairStep g rs ↔ ∃ r ∈ rs, ∃ s ∈ candidates (g r.Remainder),
      c = ⟨Value.list [r.Result, s.Result], s.Remainder⟩ := by
  unfold pairStep
  rw [List.mem_flatMap]
  constructor
  · rintro ⟨r, hr, hc⟩
    obtain ⟨s, hs, hcs⟩ := List.mem_map.mp hc
    exact ⟨r, hr, s, hs, hcs.symm⟩
  · rintro ⟨r, hr, s, hs, hcs⟩
    exact ⟨r, hr, List.mem_map.mpr ⟨s, hs, hcs.symm⟩⟩

theorem and_mem (f g : Parser) (input : List UInt8) (res : List ParseResult)
    (h : and f g input = Except.ok res) (c : ParseResult) (hc : c ∈ res) :
    ∃ rs r o s, f input = Except.ok rs ∧ r ∈ rs ∧ g r.Remainder = Except.ok o ∧ s ∈ o ∧
      c = ⟨Value.list [r.Result, s.Result], s.Remainder⟩ := by
  obtain ⟨rs, hf, hg⟩ := and_inv f g input res h
  have h2 := and_eq f g input rs hf hg
  rw [h] at h2
  have e := Except.ok.inj h2
  rw [e] at hc
  obtain ⟨r, hr, s, hs, hcs⟩ := mem_pairStep_iff.mp hc
  exact ⟨rs, r, _, s, hf, hr, eq_ok_candidates (hg r hr), hs, hcs⟩

/-- C15 as stated fails: `And(Digit, Digit, Digit)` on "123x" yields the value
`[['1','2'],'3']`, the left-nested pairing, and not `['1',['2','3']]`. -/
theorem And_three_is_left_nested :
    And [Digit, Digit, Digit] (ascii "123x") = Except.ok
      [⟨Value.list [Value.list [Value.byte 49, Value.byte 50], Value.byte 51],
        ascii "x"⟩] ∧
    Value.list [Value.list [Value.byte 49, Value.byte 50], Value.byte 51] ≠
      Value.list [Value.byte 49, Value.list [Value.byte 50, Value.byte 51]] := by
  refine ⟨rfl, ?_⟩
  simp

/-- C15, amended: an n-ary `And` yields a left-nested pairing.  Every candidate
of `And(p1, p2, p3)(input)` comes from a candidate `(v1, r1)` of `p1` on the
input, a candidate `(v2, r2)` of `p2` on `r1` and a candidate `(v3, r3)` of `p3`
on `r2` (the parsers consume the input left to right); its remainder is `r3`
and its value is `[[v1, v2], v3]`. -/
theorem And_three_left_nested (p1 p2 p3 : Parser) (input : List UInt8)
    (cs : List ParseResult) (h : And [p1, p2, p3] input = Except.ok cs) :
    ∀ c ∈ cs, ∃ o1 o2 o3 v1 r1 v2 r2 v3,
      p1 input = Except.ok o1 ∧ (⟨v1, r1⟩ : ParseResult) ∈ o1 ∧
      p2 r1 = Except.ok o2 ∧ (⟨v2, r2⟩ : ParseResult) ∈ o2 ∧
      p3 r2 = Except.ok o3 ∧ (⟨v3, c.Remainder⟩ : ParseResult) ∈ o3 ∧
      c.Result = Value.list [Value.list [v1, v2], v3] := by
  intro c hc
  have h' : and (and p1 p2) p3 input = Except.ok cs := h
  obtain ⟨rs, r, o3, s, hrs, hr, ho3, hs, rfl⟩ := and_mem (and p1 p2) p3 input cs h' c hc
  obtain ⟨o1, a, o2, b, ho1, ha, ho2, hb, rfl⟩ := and_mem p1 p2 input rs hrs r hr
  exact ⟨o1, o2, o3, a.Result, a.Remainder, b.Result, b.Remainder, s.Result,
    ho1, ha, ho2, hb, ho3, hs, rfl⟩

/-- C15, amended, at `And(Digit, Digit, Digit)` on "123x". -/
theorem And_three_left_nested_witness :
    ∃ o1 o2 o3 v1 r1 v2 r2 v3,
      Digit (ascii "123x") = Except.ok o1 ∧ (⟨v1, r1⟩ : ParseResult) ∈ o1 ∧
      Digit r1 = Except.ok o2 ∧ (⟨v2, r2⟩ : ParseResult) ∈ o2 ∧
      Digit r2 = Except.ok o3 ∧ (⟨v3, ascii "x"⟩ : ParseResult) ∈ o3 ∧
      Value.list [Value.list [Value.byte 49, Value.byte 50], Value.byte 51] =
        Value.list [Value.list [v1, v2], v3] :=
  And_three_left_nested Digit Digit Digit (ascii "123x")
    [⟨Value.list [Value.list [Value.byte 49, Value.byte 50], Value.byte 51], ascii "x"⟩]
    rfl ⟨Value.list [Value.list [Value.byte 49, Value.byte 50], Value.byte 51], ascii "x"⟩
    (List.mem_singleton.mpr rfl)

/-! ## One-or-more, never zero-or-more -/

theorem Many_of_fail (p : Parser) (input : List UInt8) (n : Nat)
    (hp : p input = Except.ok []) : Many (n + 1) p input = Except.ok [] := by
  have h := Many_unfold n p input [] hp (fun r hr => by cases hr)
  simpa [repeatStep_nil] using h

theorem XMany_of_fail (p : Parser) (input : List UInt8) (n : Nat)
    (hp : p input = Except.ok []) : XMany (n + 1) p input = Except.ok [] := by
  have h := XMany_unfold n p input [] hp (fun r hr => by cases hr)
  simpa [repeatStep_nil] using h

theorem Reps_shorter (p : Parser)
    (hcons : ∀ input rs, p input = Except.ok rs →
      ∀ r ∈ rs, r.Remainder.length < input.length)
    (input rem : List UInt8) (vs : List Value) (h : Reps p input vs rem) :
    rem.length < input.length := by
  induction h with
  | one input rs v rem hrs hmem => exact hcons input rs hrs _ hmem
  | more input rs v mid vs rem hrs hmem _ ih =>
    exact Nat.lt_trans ih (hcons input rs hrs _ hmem)

theorem wrapUnicodePredicate_of_fail (q : Nat → Bool) (input : List UInt8)
    (h : ∀ first rest, input = first :: rest → q first.toNat = false) :
    wrapUnicodePredicate q input = Except.ok [] := by
  cases input with
  | nil => rfl
  | cons first rest =>
    have hq := h first rest rfl
    simp [wrapUnicodePredicate, Pred, hq, Fail]

/-- C16: `Many` and `XMany` are one-or-more.  For every parser `p` and every
input, the empty one included, with `p(input) = []`, both `Many(p)(input)` and
`XMany(p)(input)` are the empty result set; when `p` is consuming, no candidate
of `Many(p)` or `XMany(p)` has the whole input as its remainder; hence
`Whitespace`, `Word` and `Integer` fail on an input that is empty or does not
start with a space, a letter or a digit respectively. -/
theorem repetition_needs_one_match :
    (∀ (p : Parser) (input : List UInt8) (fuel : Nat), p input = Except.ok [] →
      Many (fuel + 1) p input = Except.ok [] ∧ XMany (fuel + 1) p input = Except.ok []) ∧
    (∀ (p : Parser),
      (∀ input rs, p input = Except.ok rs → ∀ r ∈ rs, r.Remainder.length < input.length) →
      ∀ (fuel : Nat) (input : List UInt8) (cs : List ParseResult),
        (Many fuel p input = Except.ok cs ∨ XMany fuel p input = Except.ok cs) →
        ∀ c ∈ cs, c.Remainder.length < input.length ∧ c.Remainder ≠ input) ∧
    (∀ (fuel : Nat) (input : List UInt8),
      (∀ first rest, input = first :: rest → unicodeIsSpace first.toNat = false) →
      Whitespace (fuel + 1) input = Except.ok []) ∧
    (∀ (fuel : Nat) (input : List UInt8),
      (∀ first rest, input = first :: rest → unicodeIsLetter first.toNat = false) →
      Word (fuel + 1) input = Except.ok []) ∧
    (∀ (fuel : Nat) (input : List UInt8),
      (∀ first rest, input = first :: rest → unicodeIsDigit first.toNat = false) →
      Integer (fuel + 1) input = Except.ok []) := by
  refine ⟨?_, ?_, ?_, ?_, ?_⟩
  · intro p input fuel hp
    exact ⟨Many_of_fail p input fuel hp, XMany_of_fail p input fuel hp⟩
  · intro p hcons fuel input cs h c hc
    have hreps : ∃ vs, Reps p input vs c.Remainder ∧ c.Result = manyValue vs := by
      rcases h with h | h
      · exact Many_sound p fuel input cs h c hc
      · exact XMany_sound p fuel input cs h c hc
    obtain ⟨vs, hvs, _⟩ := hreps
    have hlt := Reps_shorter p hcons input c.Remainder vs hvs
    refine ⟨hlt, ?_⟩
    intro heq
    rw [heq] at hlt
    exact Nat.lt_irrefl _ hlt
  · intro fuel input h
    exact Many_of_fail _ input fuel (wrapUnicodePredicate_of_fail unicodeIsSpace input h)
  · intro fuel input h
    exact XMany_of_fail Letter input fuel (wrapUnicodePredicate_of_fail unicodeIsLetter input h)
  · intro fuel input h
    exact Many_of_fail Digit input fuel (wrapUnicodePredicate_of_fail unicodeIsDigit input h)

/-- C16 at `Integer` on "x1" and on the empty input, and at `Word` on "1x". -/
theorem repetition_needs_one_match_witness :
    Integer 3 (ascii "x1") = Except.ok [] ∧ Integer 1 [] = Except.ok [] ∧
    Word 3 (ascii "1x") = Except.ok [] ∧
    Many 3 Digit (ascii "x1") = Except.ok [] ∧ XMany 3 Digit (ascii "x1") = Except.ok [] :=
  ⟨repetition_needs_one_match.2.2.2.2 2 (ascii "x1")
      (fun first rest h => by cases h; rfl),
    repetition_needs_one_match.2.2.2.2 0 [] (fun first rest h => by cases h),
    repetition_needs_one_match.2.2.2.1 2 (ascii "1x")
      (fun first rest h => by cases h; rfl),
    repetition_needs_one_match.1 Digit (ascii "x1") 2 rfl⟩

/-! ## The trimming combinators -/

theorem Bind_Bind_Unit_eq (F : Value → Value → Value) (f g : Parser)
    (input : List UInt8) (rs : List ParseResult) (hf : f input = Except.ok rs)
    (hg : ∀ r ∈ rs, ∃ o, g r.Remainder = Except.ok o) :
    Bind f (fun a => Bind g (fun b => Unit (F a b))) input =
      Except.ok (rs.flatMap (fun r => (candidates (g r.Remainder)).map
        (fun s => ⟨F r.Result s.Result, s.Remainder⟩))) := by
  have key : ∀ r ∈ rs,
      Bind g (fun b => Unit (F r.Result b)) r.Remainder =
        Except.ok ((candidates (g r.Remainder)).map
          (fun s => ⟨F r.Result s.Result, s.Remainder⟩)) := by
    intro r hr
    exact Bind_Unit_eq g (fun w => F r.Result w) r.Remainder _
      (eq_ok_candidates (hg r hr))
  rw [Bind_eq f _ input rs hf (fun r hr => ⟨_, key r hr⟩)]
  congr 1
  apply List.flatMap_congr
  intro r hr
  rw [key r hr]
  rfl

theorem ThenIgnore_eq (f g : Parser) (input : List UInt8) (rs : List ParseResult)
    (hf : f input = Except.ok rs) (hg : ∀ r ∈ rs, ∃ o, g r.Remainder = Except.ok o) :
    ThenIgnore f g input =
      Except.ok (rs.flatMap (fun a => (candidates (g a.Remainder)).map
        (fun b => ⟨a.Result, b.Remainder⟩))) :=
  Bind_Bind_Unit_eq (fun a _ => a) f g input rs hf hg

theorem IgnoreThen_eq (f g : Parser) (input : List UInt8) (rs : List ParseResult)
    (hf : f input = Except.ok rs) (hg : ∀ r ∈ rs, ∃ o, g r.Remainder = Except.ok o) :
    IgnoreThen f g input =
      Except.ok (rs.flatMap (fun a => candidates (g a.Remainder))) := by
  have h : IgnoreThen f g input = _ := Bind_Bind_Unit_eq (fun _ b => b) f g input rs hf hg
  rw [h]
  congr 1
  apply List.flatMap_congr
  intro r _
  exact List.map_id _

theorem ThenX_eq (g h : Parser) (hg : ∀ x, ∃ rs, g x = Except.ok rs)
    (hh : ∀ x, ∃ rs, h x = Except.ok rs) (x : List UInt8) :
    ThenX g h x = Except.ok (thenXList g h x) := by
  have h1 := eq_ok_candidates (hg x)
  have h2 := ThenIgnore_eq g h x _ h1 (fun r _ => hh r.Remainder)
  exact or_eq g (ThenIgnore g h) x _ _ h1 h2

theorem mem_thenXList (g h : Parser) (x : List UInt8) (c : ParseResult)
    (hc : c ∈ thenXList g h x) : ∃ a ∈ candidates (g x), c.Result = a.Result := by
  unfold thenXList at hc
  rcases List.mem_append.mp hc with hc | hc
  · exact ⟨c, hc, rfl⟩
  · obtain ⟨a, ha, hca⟩ := List.mem_flatMap.mp hc
    obtain ⟨b, _, hb⟩ := List.mem_map.mp hca
    exact ⟨a, ha, by rw [← hb]⟩

/-- C17: for all parsers `f`, `g`, `h` that return on every input, and every
input, `XThenX(f, g, h)(input)` is `T(input)` followed by the concatenation, over
the candidates `(_, r)` of `f(input)`, of `T(r)`, where `T = ThenX(g, h)` and
`T(x)` is `g(x)` followed by the candidates `(v, r2)` for `(v, r1)` in `g(x)` and
`(_, r2)` in `h(r1)` (`thenXList g h x`).  In particular every candidate's value
is a value produced by `g`, and every candidate of `g` on the input itself is a
candidate of the result (`f` and `h` are optional). -/
theorem XThenX_is_trimmed_core (f g h : Parser)
    (hf : ∀ x, ∃ rs, f x = Except.ok rs) (hg : ∀ x, ∃ rs, g x = Except.ok rs)
    (hh : ∀ x, ∃ rs, h x = Except.ok rs) (input : List UInt8) :
    (∀ x, ThenX g h x = Except.ok (candidates (g x) ++
      (candidates (g x)).flatMap (fun a =>
        (candidates (h a.Remainder)).map (fun b => ⟨a.Result, b.Remainder⟩)))) ∧
    XThenX f g h input = Except.ok (candidates (ThenX g h input) ++
      (candidates (f input)).flatMap (fun r => candidates (ThenX g h r.Remainder))) ∧
    (∀ c ∈ candidates (XThenX f g h input), ∃ x, ∃ a ∈ candidates (g x),
      c.Result = a.Result) ∧
    (∀ a ∈ candidates (g input), a ∈ candidates (XThenX f g h input)) := by
  have hT : ∀ x, ThenX g h x = Except.ok (thenXList g h x) := ThenX_eq g h hg hh
  have h1 := eq_ok_candidates (hf input)
  have h2 := IgnoreThen_eq f (ThenX g h) input _ h1 (fun r _ => ⟨_, hT r.Remainder⟩)
  have hX : XThenX f g h input = Except.ok (candidates (ThenX g h input) ++
      (candidates (f input)).flatMap (fun r => candidates (ThenX g h r.Remainder))) := by
    have h3 := or_eq (ThenX g h) (IgnoreThen f (ThenX g h)) input _ _ (hT input) h2
    rw [hT input]
    exact h3
  refine ⟨hT, hX, ?_, ?_⟩
  · intro c hc
    rw [hX, candidates_ok] at hc
    rcases List.mem_append.mp hc with hc | hc
    · rw [hT input] at hc
      exact ⟨input, mem_thenXList g h input c hc⟩
    · obtain ⟨r, _, hcr⟩ := List.mem_flatMap.mp hc
      rw [hT r.Remainder] at hcr
      exact ⟨r.Remainder, mem_thenXList g h r.Remainder c hcr⟩
  · intro a ha
    rw [hX, candidates_ok, hT input, candidates_ok]
    exact List.mem_append_left _ (List.mem_append_left _ ha)

theorem Literal_total (x : Value) (input : List UInt8) :
    ∃ rs, Literal x input = Except.ok rs := by
  cases input with
  | nil => exact ⟨_, rfl⟩
  | cons first rest =>
    rcases interfaceEq_byte first x with ⟨h, _⟩ | ⟨h, _⟩
    · exact ⟨[⟨Value.byte first, rest⟩], by simp [Literal, Pred, h, Unit]⟩
    · exact ⟨[], by simp [Literal, Pred, h, Fail]⟩

/-- C17 at `XThenX(Literal(' '), Digit, Literal(' '))` on " 1 x": the digit is
found behind the leading space, with and without the trailing space. -/
theorem XThenX_is_trimmed_core_witness :
    XThenX (Literal (Value.byte 32)) Digit (Literal (Value.byte 32)) (ascii " 1 x") =
      Except.ok [⟨Value.byte 49, ascii " x"⟩, ⟨Value.byte 49, ascii "x"⟩] :=
  (XThenX_is_trimmed_core (Literal (Value.byte 32)) Digit (Literal (Value.byte 32))
    (Literal_total _) (wrapUnicodePredicate_total unicodeIsDigit) (Literal_total _)
    (ascii " 1 x")).2.1

/-! ## Where a failure can come from -/

theorem bindLoop_error (g : ParserGenerator) (e : Fault) :
    ∀ (rs acc : List ParseResult), bindLoop g rs acc = Except.error e →
      ∃ r ∈ rs, g r.Result r.Remainder = Except.error e := by
  intro rs
  induction rs with
  | nil => intro acc h; cases h
  | cons s rest ih =>
    intro acc h
    cases hs : g s.Result s.Remainder with
    | error e2 =>
      simp only [bindLoop, hs, error_bind, Except.error.injEq] at h
      subst h
      exact ⟨s, List.mem_cons_self s rest, hs⟩
    | ok o =>
      simp only [bindLoop, hs, ok_bind] at h
      obtain ⟨r, hr, hre⟩ := ih _ h
      exact ⟨r, List.mem_cons_of_mem s hr, hre⟩

theorem Bind_error (f : Parser) (g : ParserGenerator) (input : List UInt8) (e : Fault)
    (h : Bind f g input = Except.error e) :
    f input = Except.error e ∨
    ∃ rs, f input = Except.ok rs ∧ ∃ r ∈ rs, g r.Result r.Remainder = Except.error e := by
  cases hf : f input with
  | error e2 =>
    simp only [Bind, hf, error_bind, Except.error.injEq] at h
    subst h
    exact Or.inl rfl
  | ok rs =>
    simp only [Bind, hf, ok_bind] at h
    exact Or.inr ⟨rs, rfl, bindLoop_error g e rs [] h⟩

theorem or_error (f g : Parser) (input : List UInt8) (e : Fault)
    (h : or f g input = Except.error e) :
    f input = Except.error e ∨ g input = Except.error e := by
  cases hf : f input with
  | error e2 =>
    simp only [or, hf, error_bind, Except.error.injEq] at h
    subst h
    exact Or.inl rfl
  | ok a =>
    cases hg : g input with
    | error e2 =>
      simp only [or, hf, hg, ok_bind, error_bind, Except.error.injEq] at h
      subst h
      exact Or.inr rfl
    | ok b => simp [or, hf, hg] at h

theorem xor_error (f g : Parser) (input : List UInt8) (e : Fault)
    (h : xor f g input = Except.error e) :
    f input = Except.error e ∨ g input = Except.error e := by
  cases hf : f input with
  | error e2 =>
    simp only [xor, hf, error_bind, Except.error.injEq] at h
    subst h
    exact Or.inl rfl
  | ok a =>
    rw [xor_eq f g input a hf] at h
    split at h
    · cases h
    · exact Or.inr h

theorem and_error (f g : Parser) (input : List UInt8) (e : Fault)
    (h : and f g input = Except.error e) :
    f input = Except.error e ∨
    ∃ rs, f input = Except.ok rs ∧ ∃ r ∈ rs, g r.Remainder = Except.error e := by
  rcases Bind_error f _ input e h with h1 | ⟨rs, hrs, r, hr, h2⟩
  · exact Or.inl h1
  · right
    refine ⟨rs, hrs, r, hr, ?_⟩
    rcases Bind_error g _ r.Remainder e h2 with h3 | ⟨_, _, _, _, h4⟩
    · exact h3
    · cases h4

theorem usingAnd_error (f g : Parser) (input : List UInt8) (e : Fault)
    (h : Using (And [f, g]) consBoth input = Except.error e) :
    f input = Except.error e ∨
    ∃ rs, f input = Except.ok rs ∧ ∃ r ∈ rs, g r.Remainder = Except.error e := by
  rcases Bind_error (And [f, g]) _ input e h with h1 | ⟨ps, hps, c, hc, h2⟩
  · exact and_error f g input e h1
  · exfalso
    obtain ⟨rs, hf, hg⟩ := and_inv f g input ps hps
    have h3 : and f g input = Except.ok (pairStep g rs) := and_eq f g input rs hf hg
    have h4 : and f g input = Except.ok ps := hps
    rw [h3] at h4
    have e4 := Except.ok.inj h4
    rw [← e4] at hc
    obtain ⟨a, b, hab⟩ := mem_pairStep hc
    simp only [hab, consBoth_pair, ok_bind, Unit] at h2
    cases h2

theorem Many_no_crash (p : Parser) (hp : ∀ input, p input ≠ Except.error Fault.crash) :
    ∀ (fuel : Nat) (input : List UInt8), Many fuel p input ≠ Except.error Fault.crash := by
  intro fuel
  induction fuel with
  | zero => intro input h; cases h
  | succ n ih =>
    intro input h
    rw [Many_succ] at h
    rcases or_error _ _ input _ h with h1 | h1
    · exact hp input h1
    · rcases usingAnd_error p (Many n p) input _ h1 with h2 | ⟨_, _, r, _, h2⟩
      · exact hp input h2
      · exact ih r.Remainder h2

theorem XMany_no_crash (p : Parser) (hp : ∀ input, p input ≠ Except.error Fault.crash) :
    ∀ (fuel : Nat) (input : List UInt8), XMany fuel p input ≠ Except.error Fault.crash := by
  intro fuel
  induction fuel with
  | zero => intro input h; cases h
  | succ n ih =>
    intro input h
    rw [XMany_succ] at h
    rcases xor_error _ _ input _ h with h1 | h1
    · rcases usingAnd_error p (XMany n p) input _ h1 with h2 | ⟨_, _, r, _, h2⟩
      · exact hp input h2
      · exact ih r.Remainder h2
    · exact hp input h1

theorem wrapUnicodePredicate_no_crash (q : Nat → Bool) (input : List UInt8) :
    wrapUnicodePredicate q input ≠ Except.error Fault.crash := by
  obtain ⟨rs, h⟩ := wrapUnicodePredicate_total q input
  rw [h]
  intro h2
  cases h2

theorem Pred_error (pr : Predicate) (input : List UInt8) (e : Fault)
    (h : Pred pr input = Except.error e) :
    ∃ first rest, input = first :: rest ∧ pr (Value.byte first) = Except.error e := by
  cases input with
  | nil => cases h
  | cons first rest =>
    refine ⟨first, rest, rfl, ?_⟩
    cases hp : pr (Value.byte first) with
    | error e2 =>
      simp only [Pred, hp, error_bind, Except.error.injEq] at h
      rw [h]
    | ok holds =>
      cases holds with
      | false => simp [Pred, hp, Fail] at h
      | true => simp [Pred, hp, Unit] at h

theorem leaf_returns (q : Nat → Bool) (input : List UInt8) :
    (∃ ms, ∀ fuel, input.length < fuel →
      Many fuel (wrapUnicodePredicate q) input = Except.ok ms) ∧
    (∃ xs, ∀ fuel, input.length < fuel →
      XMany fuel (wrapUnicodePredicate q) input = Except.ok xs) := by
  obtain ⟨ms, hms⟩ := Many_returns _ (wrapUnicodePredicate_total q)
    (wrapUnicodePredicate_consuming q) (input.length + 1) input (Nat.lt_succ_self _)
  obtain ⟨xs, hxs⟩ := XMany_returns _ (wrapUnicodePredicate_total q)
    (wrapUnicodePredicate_consuming q) (input.length + 1) input (Nat.lt_succ_self _)
  exact ⟨⟨ms, fun fuel hfuel => Many_fuel_mono _ input ms _ hms fuel hfuel⟩,
    ⟨xs, fun fuel hfuel => XMany_fuel_mono _ input xs _ hxs fuel hfuel⟩⟩

/-- C18: totality on every input, the empty one included.  On the empty input
`Pred(pr)`, `Literal(x)`, `Letter`, `Digit`, `Whitespace`, `Word` and `Integer`
return the empty result set.  On every input `Literal(x)`, `Letter` and `Digit`
return a result; `Pred(pr)` fails only if the predicate itself fails on the
first byte of a non-empty input; `Whitespace`, `Word` and `Integer` return a
result for every recursion budget above the input length and panic for no
budget; and for every parser `p` that does not panic, `Many(p)` and `XMany(p)`
do not panic either, so the type assertion and the indexing of their callback
always receive a 2-element composite. -/
theorem leaf_parsers_total :
    ((∀ pr, Pred pr [] = Except.ok []) ∧ (∀ x, Literal x [] = Except.ok []) ∧
      Letter [] = Except.ok [] ∧ Digit [] = Except.ok [] ∧
      (∀ fuel, Whitespace (fuel + 1) [] = Except.ok [] ∧
        Word (fuel + 1) [] = Except.ok [] ∧ Integer (fuel + 1) [] = Except.ok [])) ∧
    (∀ input, (∀ x, ∃ rs, Literal x input = Except.ok rs) ∧
      (∃ rs, Letter input = Except.ok rs) ∧ (∃ rs, Digit input = Except.ok rs)) ∧
    (∀ pr input e, Pred pr input = Except.error e →
      ∃ first rest, input = first :: rest ∧ pr (Value.byte first) = Except.error e) ∧
    (∀ input, (∃ rs, ∀ fuel, input.length < fuel → Whitespace fuel input = Except.ok rs) ∧
      (∃ rs, ∀ fuel, input.length < fuel → Word fuel input = Except.ok rs) ∧
      (∃ rs, ∀ fuel, input.length < fuel → Integer fuel input = Except.ok rs)) ∧
    (∀ fuel input, Whitespace fuel input ≠ Except.error Fault.crash ∧
      Word fuel input ≠ Except.error Fault.crash ∧
      Integer fuel input ≠ Except.error Fault.crash) ∧
    (∀ p : Parser, (∀ input, p input ≠ Except.error Fault.crash) →
      ∀ fuel input, Many fuel p input ≠ Except.error Fault.crash ∧
        XMany fuel p input ≠ Except.error Fault.crash) := by
  refine ⟨⟨fun _ => rfl, fun _ => rfl, rfl, rfl, fun _ => ⟨rfl, rfl, rfl⟩⟩, ?_, Pred_error,
    ?_, ?_, ?_⟩
  · intro input
    exact ⟨fun x => Literal_total x input, wrapUnicodePredicate_total unicodeIsLetter input,
      wrapUnicodePredicate_total unicodeIsDigit input⟩
  · intro input
    exact ⟨(leaf_returns unicodeIsSpace input).1, (leaf_returns unicodeIsLetter input).2,
      (leaf_returns unicodeIsDigit input).1⟩
  · intro fuel input
    exact ⟨Many_no_crash _ (wrapUnicodePredicate_no_crash unicodeIsSpace) fuel input,
      XMany_no_crash Letter (wrapUnicodePredicate_no_crash unicodeIsLetter) fuel input,
      Many_no_crash Digit (wrapUnicodePredicate_no_crash unicodeIsDigit) fuel input⟩
  · intro p hp fuel input
    exact ⟨Many_no_crash p hp fuel input, XMany_no_crash p hp fuel input⟩

/-- C18 at `Many(Literal('a'))` and `XMany(Literal('a'))` on "aab": no panic. -/
theorem leaf_parsers_total_witness :
    Many 4 (Literal (Value.byte 97)) (ascii "aab") ≠ Except.error Fault.crash ∧
    XMany 4 (Literal (Value.byte 97)) (ascii "aab") ≠ Except.error Fault.crash :=
  leaf_parsers_total.2.2.2.2.2 (Literal (Value.byte 97))
    (fun input h => by
      obtain ⟨rs, hrs⟩ := Literal_total (Value.byte 97) input
      rw [hrs] at h
      cases h)
    4 (ascii "aab")

/-! ## `XMany` against `Many` -/

theorem Many_nil_iff (n : Nat) (p : Parser) (input : List UInt8) (ms : List ParseResult)
    (h : Many (n + 1) p input = Except.ok ms) : ms = [] ↔ p input = Except.ok [] := by
  obtain ⟨rs, hp, _, rfl⟩ := Many_eq_of_ok n p input ms h
  constructor
  · intro hnil
    rw [hp, (List.append_eq_nil.mp hnil).1]
  · intro h0
    rw [hp] at h0
    cases Except.ok.inj h0
    rfl

theorem XMany_nil_iff (n : Nat) (p : Parser) (input : List UInt8) (xs : List ParseResult)
    (h : XMany (n + 1) p input = Except.ok xs) : xs = [] ↔ p input = Except.ok [] := by
  obtain ⟨rs, hp, _, rfl⟩ := XMany_eq_of_ok n p input xs h
  constructor
  · intro hnil
    split at hnil
    · rename_i hpos
      rw [hnil] at hpos
      exact absurd hpos (by simp)
    · rw [hp, hnil]
  · intro h0
    rw [hp] at h0
    cases Except.ok.inj h0
    rfl

/-- C19: `XMany` refines `Many`.  For every parser `p` that returns on every input
and whose candidates always strictly consume input, for every input and every
recursion budget above its length, both `XMany(p)` and `Many(p)` return; each
candidate (value and remainder) of `XMany(p)(input)` also occurs in
`Many(p)(input)`; and `XMany(p)(input)` is empty if and only if
`Many(p)(input)` is empty, both exactly when `p(input)` is empty. -/
theorem XMany_refines_Many (p : Parser)
    (htotal : ∀ input, ∃ rs, p input = Except.ok rs)
    (hcons : ∀ input rs, p input = Except.ok rs →
      ∀ r ∈ rs, r.Remainder.length < input.length)
    (input : List UInt8) (fuel : Nat) (hfuel : input.length < fuel) :
    ∃ xs ms, XMany fuel p input = Except.ok xs ∧ Many fuel p input = Except.ok ms ∧
      (∀ c ∈ xs, c ∈ ms) ∧ (xs = [] ↔ ms = []) ∧
      (xs = [] ↔ p input = Except.ok []) ∧ (ms = [] ↔ p input = Except.ok []) := by
  obtain ⟨xs, hxs⟩ := XMany_returns p htotal hcons fuel input hfuel
  obtain ⟨ms, hms⟩ := Many_returns p htotal hcons fuel input hfuel
  obtain ⟨n, rfl⟩ := Nat.exists_eq_succ_of_ne_zero (Nat.pos_iff_ne_zero.mp (by omega : 0 < fuel))
  have hx := XMany_nil_iff n p input xs hxs
  have hm := Many_nil_iff n p input ms hms
  refine ⟨xs, ms, hxs, hms, ?_, hx.trans hm.symm, hx, hm⟩
  intro c hc
  obtain ⟨vs, hreps, hval⟩ := XMany_sound p (n + 1) input xs hxs c hc
  have hmem := Many_complete p input c.Remainder vs hreps (n + 1) ms hms
  rw [← hval] at hmem
  exact hmem

/-- C19 at `Digit` on "123x": the single candidate of `XMany(Digit)` is the last
candidate of `Many(Digit)`. -/
theorem XMany_refines_Many_witness :
    ∃ xs ms, XMany 5 Digit (ascii "123x") = Except.ok xs ∧
      Many 5 Digit (ascii "123x") = Except.ok ms ∧
      (∀ c ∈ xs, c ∈ ms) ∧ (xs = [] ↔ ms = []) ∧
      (xs = [] ↔ Digit (ascii "123x") = Except.ok []) ∧
      (ms = [] ↔ Digit (ascii "123x") = Except.ok []) :=
  XMany_refines_Many Digit (wrapUnicodePredicate_total unicodeIsDigit)
    (wrapUnicodePredicate_consuming unicodeIsDigit) (ascii "123x") 5 (by decide)

/-! ## `Stringify` -/

theorem Stringify_of_not_bytes (c : ParseResult) (h : ∀ bs, c.Result ≠ Value.bytes bs) :
    Stringify c = Except.error Fault.crash := by
  unfold Stringify
  cases hr : c.Result with
  | bytes bs => exact absurd hr (h bs)
  | byte _ => rfl
  | list _ => rfl
  | other _ => rfl

theorem Stringify_of_byte_or_list (c : ParseResult)
    (h : (∃ b, c.Result = Value.byte b) ∨ (∃ l, c.Result = Value.list l)) :
    Stringify c = Except.error Fault.crash := by
  apply Stringify_of_not_bytes
  intro bs hbs
  rcases h with ⟨b, hb⟩ | ⟨l, hl⟩
  · rw [hb] at hbs
    cases hbs
  · rw [hl] at hbs
    cases hbs

theorem wrapUnicodePredicate_byte (q : Nat → Bool) (input : List UInt8)
    (rs : List ParseResult) (h : wrapUnicodePredicate q input = Except.ok rs) :
    ∀ r ∈ rs, ∃ b, r.Result = Value.byte b := by
  intro r hr
  rcases wrapUnicodePredicate_cases q input with h2 | ⟨first, rest, _, h2⟩
  · rw [h2] at h
    cases Except.ok.inj h
    cases hr
  · rw [h2] at h
    cases Except.ok.inj h
    rw [List.mem_singleton] at hr
    subst hr
    exact ⟨first, rfl⟩

theorem Reps_value_shape (p : Parser)
    (hbyte : ∀ input rs, p input = Except.ok rs → ∀ r ∈ rs, ∃ b, r.Result = Value.byte b)
    (input rem : List UInt8) (vs : List Value) (h : Reps p input vs rem) :
    (∃ b, manyValue vs = Value.byte b) ∨ (∃ l, manyValue vs = Value.list l) := by
  induction h with
  | one input rs v rem hrs hmem => exact Or.inl (hbyte input rs hrs _ hmem)
  | more input rs v mid vs rem hrs hmem hrest _ =>
    right
    rw [manyValue_cons _ (Reps_ne_nil hrest)]
    exact ⟨_, rfl⟩

theorem leaf_candidate_shape (q : Nat → Bool) (fuel : Nat) (input : List UInt8)
    (cs : List ParseResult)
    (h : Many fuel (wrapUnicodePredicate q) input = Except.ok cs ∨
      XMany fuel (wrapUnicodePredicate q) input = Except.ok cs) :
    ∀ c ∈ cs, (∃ b, c.Result = Value.byte b) ∨ (∃ l, c.Result = Value.list l) := by
  intro c hc
  have hreps : ∃ vs, Reps (wrapUnicodePredicate q) input vs c.Remainder ∧
      c.Result = manyValue vs := by
    rcases h with h | h
    · exact Many_sound _ fuel input cs h c hc
    · exact XMany_sound _ fuel input cs h c hc
  obtain ⟨vs, hvs, hval⟩ := hreps
  rw [hval]
  exact Reps_value_shape _ (wrapUnicodePredicate_byte q) input c.Remainder vs hvs

/-- C20: `Stringify` returns only when the candidate's `Result` is a byte slice.
For every input and every candidate returned by `Letter` or `Digit` the `Result`
is a single byte, and for every candidate returned by `Word`, `Integer` or
`Whitespace` it is a single byte or a generic list; it is never a byte slice, so
the type assertion of `Stringify` panics on every candidate these parsers
produce. -/
theorem Stringify_panics_on_leaf_candidates :
    (∀ r : ParseResult, (∃ s, Stringify r = Except.ok s) ↔ ∃ bs, r.Result = Value.bytes bs) ∧
    (∀ input cs, (Letter input = Except.ok cs ∨ Digit input = Except.ok cs) →
      ∀ c ∈ cs, (∃ b, c.Result = Value.byte b) ∧ Stringify c = Except.error Fault.crash) ∧
    (∀ fuel input cs, (Word fuel input = Except.ok cs ∨ Integer fuel input = Except.ok cs ∨
        Whitespace fuel input = Except.ok cs) →
      ∀ c ∈ cs, ((∃ b, c.Result = Value.byte b) ∨ (∃ l, c.Result = Value.list l)) ∧
        Stringify c = Except.error Fault.crash) := by
  refine ⟨?_, ?_, ?_⟩
  · intro r
    constructor
    · rintro ⟨s, hs⟩
      unfold Stringify at hs
      cases hr : r.Result with
      | bytes bs => exact ⟨bs, rfl⟩
      | byte _ => rw [hr] at hs; cases hs
      | list _ => rw [hr] at hs; cases hs
      | other _ => rw [hr] at hs; cases hs
    · rintro ⟨bs, hbs⟩
      exact ⟨bs, by unfold Stringify; rw [hbs]⟩
  · intro input cs h c hc
    have hb : ∃ b, c.Result = Value.byte b := by
      rcases h with h | h
      · exact wrapUnicodePredicate_byte unicodeIsLetter input cs h c hc
      · exact wrapUnicodePredicate_byte unicodeIsDigit input cs h c hc
    exact ⟨hb, Stringify_of_byte_or_list c (Or.inl hb)⟩
  · intro fuel input cs h c hc
    have hs : (∃ b, c.Result = Value.byte b) ∨ (∃ l, c.Result = Value.list l) := by
      rcases h with h | h | h
      · exact leaf_candidate_shape unicodeIsLetter fuel input cs (Or.inr h) c hc
      · exact leaf_candidate_shape unicodeIsDigit fuel input cs (Or.inl h) c hc
      · exact leaf_candidate_shape unicodeIsSpace fuel input cs (Or.inl h) c hc
    exact ⟨hs, Stringify_of_byte_or_list c hs⟩

/-- C20 at `Word` on "ab3": `Stringify` panics on its candidate `['a','b']`. -/
theorem Stringify_panics_on_leaf_candidates_witness :
    Word 3 (ascii "ab3") = Except.ok [⟨Value.list [Value.byte 97, Value.byte 98], ascii "3"⟩] ∧
    Stringify ⟨Value.list [Value.byte 97, Value.byte 98], ascii "3"⟩ =
      Except.error Fault.crash :=
  ⟨rfl, (Stringify_panics_on_leaf_candidates.2.2 3 (ascii "ab3") _ (Or.inl rfl)
    ⟨Value.list [Value.byte 97, Value.byte 98], ascii "3"⟩ (List.mem_singleton.mpr rfl)).2⟩

end GoParse
